import Mathlib

/-!
Verification development for the postfix log normalizer
(`lognormalizer/parse.py`).  The Python source is embedded shallowly:

* Python strings are Lean `String` (character classification such as
  `isdigit`/whitespace is modelled at the ASCII level);
* Python dicts (`self.state` and the per-transaction field bags) are
  insertion-ordered association lists, with heterogeneous values modelled
  by the inductive `Val`;
* `datetime` values are absolute microsecond counts (`Int`); the
  ISO-8601 parse (`datetime.fromisoformat`) is modelled for the
  `YYYY-MM-DDTHH:MM:SS[.ffffff][+HH:MM]` family of forms the log stream
  uses, with a simplified (strictly monotone) calendar, since only
  ordering and differences of timestamps matter to the engine;
* raised exceptions are an `Except String` error channel; the label text
  records the kind of Python exception.
-/

/-- Python `s.split()` token accumulator: splits on whitespace runs,
dropping empty tokens. -/
def splitWsGo (acc : List Char) : List Char → List String
  | [] => if acc.isEmpty then [] else [String.mk acc.reverse]
  | c :: cs =>
    if c.isWhitespace then
      if acc.isEmpty then splitWsGo [] cs
      else String.mk acc.reverse :: splitWsGo [] cs
    else splitWsGo (c :: acc) cs

/-- Python `s.split()` (no separator argument). -/
def pySplitWs (s : String) : List String := splitWsGo [] s.data

/-- Python `s.split(sep)` accumulator: keeps empty pieces. -/
def splitChGo (sep : Char) (acc : List Char) : List Char → List String
  | [] => [String.mk acc.reverse]
  | c :: cs =>
    if c = sep then String.mk acc.reverse :: splitChGo sep [] cs
    else splitChGo sep (c :: acc) cs

/-- Python `s.split(sep)` for a one-character separator. -/
def pySplitChar (sep : Char) (s : String) : List String := splitChGo sep [] s.data

/-- Split a character list at the first occurrence of `sep`. -/
def splitFirst (sep : Char) : List Char → Option (List Char × List Char)
  | [] => none
  | c :: cs =>
    if c = sep then some ([], cs)
    else (splitFirst sep cs).map (fun p => (c :: p.1, p.2))

/-- Python `s.split(sep, 1)`: `none` when `sep` does not occur (the
one-element result), `some (before, after)` otherwise. -/
def pySplitOnce (sep : Char) (s : String) : Option (String × String) :=
  (splitFirst sep s.data).map (fun p => (String.mk p.1, String.mk p.2))

/-- Python `s.rstrip(c)` for a single strip character: removes every
trailing occurrence. -/
def pyRstripAll (c : Char) (s : String) : String :=
  String.mk ((s.data.reverse.dropWhile (fun x => x = c)).reverse)

/-- Python `s.lstrip(c)` for a single strip character: removes every
leading occurrence. -/
def pyLstripAll (c : Char) (s : String) : String :=
  String.mk (s.data.dropWhile (fun x => x = c))

/-- Python `s.strip(set)`: removes every leading and trailing character
belonging to `set`. -/
def pyStripSet (set : List Char) (s : String) : String :=
  String.mk (((s.data.dropWhile (fun x => set.contains x)).reverse.dropWhile
    (fun x => set.contains x)).reverse)

/-- Python `s.strip("<>")`, used on mail addresses. -/
def pyStripAngles (s : String) : String := pyStripSet ['<', '>'] s

/-- Python `s[:-1]`: drop the last character (empty input stays empty). -/
def pyDropLast (s : String) : String := String.mk s.data.dropLast

/-- Python `" ".join(tokens)`. -/
def joinSpace (tokens : List String) : String := String.intercalate " " tokens

/-- Python `int(s)` for a string of ASCII digits. -/
def strToNat (s : String) : Nat :=
  s.data.foldl (fun a c => a * 10 + (c.toNat - 48)) 0

/-- The `pairwise` helper from the source: `s -> (s0,s1), (s1,s2), ...`. -/
def pairwise {α : Type} : List α → List (α × α)
  | [] => []
  | [_] => []
  | a :: b :: rest => (a, b) :: pairwise (b :: rest)

/-- Accumulator of `list(dict.fromkeys(l))`: keeps the first occurrence
of each element, in order. -/
def dedupFirstAux {α : Type} [DecidableEq α] (seen : List α) : List α → List α
  | [] => []
  | x :: xs =>
    if x ∈ seen then dedupFirstAux seen xs else x :: dedupFirstAux (x :: seen) xs

/-- Python `list(dict.fromkeys(l))`: order-preserving deduplication. -/
def dedupFirst {α : Type} [DecidableEq α] (l : List α) : List α := dedupFirstAux [] l

/-- Values stored in the state dictionaries: plain strings, string lists
(the accumulated `to=` values and `raw_log`), and parsed timestamps. -/
inductive Val : Type where
  | str : String → Val
  | strList : List String → Val
  | time : Int → Val
deriving DecidableEq, Repr

/-- Lookup in an insertion-ordered association list (Python dict read). -/
def aget {α : Type} : List (String × α) → String → Option α
  | [], _ => none
  | p :: rest, k => if p.1 = k then some p.2 else aget rest k

/-- Write to an insertion-ordered association list (Python dict
assignment): update in place when present, append when absent. -/
def aset {α : Type} : List (String × α) → String → α → List (String × α)
  | [], k, v => [(k, v)]
  | p :: rest, k, v => if p.1 = k then (k, v) :: rest else p :: aset rest k v

/-- Python `del d[k]`. -/
def adel {α : Type} : List (String × α) → String → List (String × α)
  | [], _ => []
  | p :: rest, k => if p.1 = k then adel rest k else p :: adel rest k

/-- A transaction record: the per-queue-id field bag. -/
abbrev Entry : Type := List (String × Val)

/-- The Transaction State Store: queue id to record. -/
abbrev StateMap : Type := List (String × Entry)

/-- The constant `OLD_LOGS = timedelta(minutes=10)`, in microseconds. -/
def OLD_LOGS : Int := 600000000

/-- The constant `timedelta(minutes=1)` (the cleanup interval), in
microseconds. -/
def oneMinute : Int := 60000000

/-- The uppercase hexadecimal alphabet from `_is_queue_id`. -/
def hexDigits : List Char := "0123456789ABCDEF".data

/-- The check `PostfixLogParser._is_queue_id`: length must be `11 + 1`,
then the last character is dropped and the rest checked against
`hexDigits`. -/
def is_queue_id (s : String) : Bool :=
  s.data.length == 12 && s.data.dropLast.all (fun c => hexDigits.contains c)

/-- Read exactly `n` ASCII digits into an accumulator. -/
def readDigits : Nat → Nat → List Char → Option (Nat × List Char)
  | 0, acc, l => some (acc, l)
  | n + 1, acc, c :: rest =>
    if c.isDigit then readDigits n (acc * 10 + (c.toNat - 48)) rest else none
  | _ + 1, _, [] => none

/-- Consume one expected character. -/
def readExpect (ch : Char) : List Char → Option (List Char)
  | c :: rest => if c = ch then some rest else none
  | [] => none

/-- Read up to `fuel` fractional-second digits, returning the digit
count, accumulated value, and remainder. -/
def readFracGo : Nat → Nat → Nat → List Char → (Nat × Nat × List Char)
  | 0, cnt, acc, l => (cnt, acc, l)
  | fuel + 1, cnt, acc, c :: rest =>
    if c.isDigit then readFracGo fuel (cnt + 1) (acc * 10 + (c.toNat - 48)) rest
    else (cnt, acc, c :: rest)
  | _ + 1, cnt, acc, [] => (cnt, acc, [])

/-- Parse the trailing UTC-offset part of an ISO-8601 timestamp, in
microseconds (an absent offset is treated as UTC). -/
def parseTzOffset : List Char → Option Int
  | [] => some 0
  | ['Z'] => some 0
  | c :: rest =>
    if c = '+' ∨ c = '-' then
      match readDigits 2 0 rest with
      | none => none
      | some (hh, r1) =>
        match readExpect ':' r1 with
        | none => none
        | some r2 =>
          match readDigits 2 0 r2 with
          | some (mm, []) =>
            if hh ≤ 23 ∧ mm ≤ 59 then
              some ((if c = '+' then 1 else -1) * (((hh : Int) * 3600 + (mm : Int) * 60) * 1000000))
            else none
          | _ => none
    else none

/-- Parse the `HH:MM:SS[.ffffff]` part, returning microseconds since
midnight plus the remainder. -/
def parseTimeOfDay (l : List Char) : Option (Int × List Char) :=
  match readDigits 2 0 l with
  | none => none
  | some (h, r1) =>
    match readExpect ':' r1 with
    | none => none
    | some r2 =>
      match readDigits 2 0 r2 with
      | none => none
      | some (mi, r3) =>
        match readExpect ':' r3 with
        | none => none
        | some r4 =>
          match readDigits 2 0 r4 with
          | none => none
          | some (se, r5) =>
            if h ≤ 23 ∧ mi ≤ 59 ∧ se ≤ 59 then
              match r5 with
              | '.' :: r6 =>
                let fr := readFracGo 6 0 0 r6
                if 1 ≤ fr.1 then
                  some ((((h : Int) * 3600 + (mi : Int) * 60 + (se : Int)) * 1000000
                    + (fr.2.1 : Int) * (10 ^ (6 - fr.1) : Nat), fr.2.2))
                else none
              | rest =>
                some (((h : Int) * 3600 + (mi : Int) * 60 + (se : Int)) * 1000000, rest)
            else none

/-- Modelled from `datetime.datetime.fromisoformat`, for the
`YYYY-MM-DD[THH:MM:SS[.ffffff]][+HH:MM]` family of forms that appear in
the log stream.  The calendar is simplified to a strictly monotone
month/day encoding (months of 31 days), which is adequate because the
engine only compares and subtracts timestamps. -/
def parseIso (s : String) : Option Int :=
  match readDigits 4 0 s.data with
  | none => none
  | some (y, r1) =>
    match readExpect '-' r1 with
    | none => none
    | some r2 =>
      match readDigits 2 0 r2 with
      | none => none
      | some (mo, r3) =>
        match readExpect '-' r3 with
        | none => none
        | some r4 =>
          match readDigits 2 0 r4 with
          | none => none
          | some (d, r5) =>
            if 1 ≤ mo ∧ mo ≤ 12 ∧ 1 ≤ d ∧ d ≤ 31 then
              let dayUs : Int :=
                ((y : Int) * 372 + ((mo : Int) - 1) * 31 + ((d : Int) - 1)) * 86400 * 1000000
              match r5 with
              | [] => some dayUs
              | sep :: r6 =>
                if sep = 'T' ∨ sep = ' ' then
                  match parseTimeOfDay r6 with
                  | none => none
                  | some (tod, r7) =>
                    match parseTzOffset r7 with
                    | none => none
                    | some off => some (dayUs + tod - off)
                else none
            else none

/-- The check `PostfixEvent.is_status_code`: exactly three digits. -/
def is_status_code (s : String) : Bool :=
  s.data.length == 3 && s.data.all Char.isDigit

/-- The check `PostfixEvent.is_postfix_status_code`: three dot-separated
nonempty digit groups. -/
def is_postfix_status_code (s : String) : Bool :=
  let tokens := pySplitChar '.' s
  tokens.length == 3 && tokens.all (fun p => p != "" && p.data.all Char.isDigit)

/-- The loop body test of `PostfixEvent.parse_status_code`. -/
def validStatusPair (p : String × String) : Bool :=
  is_status_code p.1 && is_postfix_status_code p.2

/-- The method `PostfixEvent.parse_status_code`: iterate over adjacent
token pairs of the status description, overwriting the result on every
qualifying pair (the loop has no break, so the last qualifying pair
survives); `none` when no pair ever qualifies. -/
def parse_status_code (desc : String) : Option (Nat × String) :=
  (pairwise (pySplitWs desc)).foldl
    (fun acc p => if validStatusPair p then some (strToNat p.1, p.2) else acc) none

/-- The method `PostfixEvent._get_domain`: the part after the first `@`,
or the whole string when it contains no `@`. -/
def _get_domain (mail : String) : String :=
  match pySplitOnce '@' mail with
  | some p => p.2
  | none => mail

/-- The finalized event (`PostfixEvent.__init__` result).  Fields that
Python assigns without interpreting keep the raw `Val`; the
`status_code`/`status_postfix_code` attributes, which may remain unset,
are `Option`s. -/
structure PostfixEvent : Type where
  timestamp : Val
  queue_id : String
  message_from : String
  message_to : List String
  message_id : String
  status : Val
  status_description : Val
  raw_log : Val
  domain_from : String
  domains_to : List String
  status_code : Option Nat
  status_postfix_code : Option String
  dovecot_fileinto_action : Option Val
  message_subject : Option Val
  client : Option Val
  orig_to : Option Val
  delay : Option Val
  delays : Option Val
  dsn : Option Val
  nrcpt : Option Val
  relay : Option Val
  size : Option Val
deriving DecidableEq, Repr

/-- Python `obj[k]`: a missing key raises `KeyError`. -/
def readVal (obj : Entry) (k : String) : Except String Val :=
  match aget obj k with
  | some v => .ok v
  | none => .error ("KeyError: " ++ k)

/-- Python `v.strip("<>")`: only a string has `strip`. -/
def asStripped : Val → Except String String
  | .str s => .ok (pyStripAngles s)
  | _ => .error "AttributeError"

/-- The list comprehension `[mail.strip("<>") for mail in obj["to"]]`:
iterating a string iterates its characters; a timestamp is not
iterable. -/
def asMailList : Val → Except String (List String)
  | .strList l => .ok (l.map pyStripAngles)
  | .str s => .ok (s.data.map (fun c => pyStripAngles (String.mk [c])))
  | .time _ => .error "TypeError"

/-- The call `self.status_description.split()` inside
`parse_status_code`: only a string splits. -/
def statusPairOf : Val → Except String (Option (Nat × String))
  | .str d => .ok (parse_status_code d)
  | _ => .error "AttributeError"

/-- The constructor `PostfixEvent.__init__`: reads the required fields
in source order (`timestamp`, `from`, `to`, `message-id`, `status`,
`status_description`, `raw_log`), derives the domains and status codes,
then collects the optional fields with `dict.get`.  Any raised error is
the constructed exception of the first failing step. -/
def buildEvent (queue_id : String) (obj : Entry) : Except String PostfixEvent :=
  match readVal obj "timestamp" with
  | .error e => .error e
  | .ok timestamp =>
  match readVal obj "from" with
  | .error e => .error e
  | .ok fromV =>
  match asStripped fromV with
  | .error e => .error e
  | .ok message_from =>
  match readVal obj "to" with
  | .error e => .error e
  | .ok toV =>
  match asMailList toV with
  | .error e => .error e
  | .ok message_to =>
  match readVal obj "message-id" with
  | .error e => .error e
  | .ok midV =>
  match asStripped midV with
  | .error e => .error e
  | .ok message_id =>
  match readVal obj "status" with
  | .error e => .error e
  | .ok status =>
  match readVal obj "status_description" with
  | .error e => .error e
  | .ok sdesc =>
  match readVal obj "raw_log" with
  | .error e => .error e
  | .ok rawLog =>
  match statusPairOf sdesc with
  | .error e => .error e
  | .ok sp =>
    .ok {
      timestamp := timestamp
      queue_id := queue_id
      message_from := message_from
      message_to := message_to
      message_id := message_id
      status := status
      status_description := sdesc
      raw_log := rawLog
      domain_from := _get_domain message_from
      domains_to := dedupFirst (message_to.map _get_domain)
      status_code := sp.map Prod.fst
      status_postfix_code := sp.map Prod.snd
      dovecot_fileinto_action := aget obj "dovecot_fileinto_action"
      message_subject := aget obj "subject"
      client := aget obj "client"
      orig_to := aget obj "orig_to"
      delay := aget obj "delay"
      delays := aget obj "delays"
      dsn := aget obj "dsn"
      nrcpt := aget obj "nrcpt"
      relay := aget obj "relay"
      size := aget obj "size"
    }

/-- The `name, value = token.split("=", 1)` step of `_set_fields`,
applied only to tokens containing `=`; the value has trailing commas
stripped. -/
def splitKeyValue (token : String) : Option (String × String) :=
  match pySplitOnce '=' token with
  | some p => some (p.1, pyRstripAll ',' p.2)
  | none => none

/-- The loop of `_set_fields`: walks the tokens with an index counter,
remembering the index of the last `status=` token, accumulating `to=`
values and overwriting every other key.  A `to=` token meeting a
non-list `to` value raises (`TypeError`), aborting the loop with the
mutations made so far. -/
def set_fields_go : Entry → Option Nat → Nat → List String → (Entry × Option Nat × Option String)
  | entry, sidx, _, [] => (entry, sidx, none)
  | entry, sidx, idx, token :: rest =>
    match splitKeyValue token with
    | none => set_fields_go entry sidx (idx + 1) rest
    | some (name, value) =>
      let sidx2 := if name = "status" then some idx else sidx
      if name = "to" then
        match aget entry "to" with
        | some (.strList l) =>
          set_fields_go (aset entry "to" (.strList (l ++ [value]))) sidx2 (idx + 1) rest
        | none =>
          set_fields_go (aset entry "to" (.strList [value])) sidx2 (idx + 1) rest
        | some _ => (entry, sidx2, some "TypeError")
      else
        set_fields_go (aset entry name (.str value)) sidx2 (idx + 1) rest

/-- The method `PostfixLogParser._set_fields`: run the token loop, then,
when a `status=` token was seen at a truthy (nonzero) index, join
everything after it, strip the leading `(` run and trailing `)` run,
and store it as `status_description`.  The second component is the
raised error, if any. -/
def _set_fields (entry : Entry) (tokens : List String) : Entry × Option String :=
  match set_fields_go entry none 0 tokens with
  | (e1, _, some err) => (e1, some err)
  | (e1, sidx, none) =>
    match sidx with
    | some i =>
      if i ≠ 0 then
        (aset e1 "status_description"
          (.str (pyRstripAll ')' (pyLstripAll '(' (joinSpace (tokens.drop (i + 1)))))), none)
      else (e1, none)
    | none => (e1, none)

/-- Base64 alphabet value of one character. -/
def b64Val (c : Char) : Option Nat :=
  if 'A' ≤ c ∧ c ≤ 'Z' then some (c.toNat - 65)
  else if 'a' ≤ c ∧ c ≤ 'z' then some (c.toNat - 97 + 26)
  else if '0' ≤ c ∧ c ≤ '9' then some (c.toNat - 48 + 52)
  else if c = '+' then some 62
  else if c = '/' then some 63
  else none

/-- Base64 decoding of a character list into bytes. -/
def b64Go : List Char → Option (List Nat)
  | [] => some []
  | a :: b :: c :: d :: rest =>
    match b64Val a, b64Val b with
    | some va, some vb =>
      let n1 := va * 4 + vb / 16
      if c = '=' then
        if d = '=' ∧ rest = [] then some [n1] else none
      else
        match b64Val c with
        | some vc =>
          let n2 := (vb % 16) * 16 + vc / 4
          if d = '=' then
            if rest = [] then some [n1, n2] else none
          else
            match b64Val d with
            | some vd =>
              match b64Go rest with
              | some tail => some (n1 :: n2 :: ((vc % 4) * 64 + vd) :: tail)
              | none => none
            | none => none
        | none => none
    | _, _ => none
  | _ => none

/-- UTF-8 decoding of a byte list. -/
def utf8Go : List Nat → Option (List Char)
  | [] => some []
  | b :: rest =>
    if b < 128 then
      match utf8Go rest with
      | some cs => some (Char.ofNat b :: cs)
      | none => none
    else if b < 192 then none
    else if b < 224 then
      match rest with
      | c1 :: r2 =>
        if 128 ≤ c1 ∧ c1 < 192 then
          let code := (b - 192) * 64 + (c1 - 128)
          if 128 ≤ code then
            match utf8Go r2 with
            | some cs => some (Char.ofNat code :: cs)
            | none => none
          else none
        else none
      | _ => none
    else if b < 240 then
      match rest with
      | c1 :: c2 :: r2 =>
        if (128 ≤ c1 ∧ c1 < 192) ∧ (128 ≤ c2 ∧ c2 < 192) then
          let code := (b - 224) * 4096 + (c1 - 128) * 64 + (c2 - 128)
          if 2048 ≤ code ∧ (code < 55296 ∨ 57344 ≤ code) then
            match utf8Go r2 with
            | some cs => some (Char.ofNat code :: cs)
            | none => none
          else none
        else none
      | _ => none
    else if b < 248 then
      match rest with
      | c1 :: c2 :: c3 :: r2 =>
        if (128 ≤ c1 ∧ c1 < 192) ∧ (128 ≤ c2 ∧ c2 < 192) ∧ (128 ≤ c3 ∧ c3 < 192) then
          let code := (b - 240) * 262144 + (c1 - 128) * 4096 + (c2 - 128) * 64 + (c3 - 128)
          if 65536 ≤ code ∧ code < 1114112 then
            match utf8Go r2 with
            | some cs => some (Char.ofNat code :: cs)
            | none => none
          else none
        else none
      | _ => none
    else none

/-- Modelled from the spec and the standard library pair
`email.header.decode_header` / `bytes.decode`: decodes the single MIME
encoded word `=?UTF-8?B?payload?=` (base64 payload, UTF-8 charset) that
the subject branch produces; anything else raises during
`subject.decode(encoding)`. -/
def decodeMimeWord (token : String) : Option String :=
  match pySplitChar '?' token with
  | ["=", cs, enc, payload, "="] =>
    if (cs = "UTF-8" ∨ cs = "utf-8") ∧ (enc = "B" ∨ enc = "b") then
      match b64Go payload.data with
      | some bytes =>
        match utf8Go bytes with
        | some chars => some (String.mk chars)
        | none => none
      | none => none
    else none
  | _ => none

/-- The literal-subject collector of `_try_to_parse_subject`: pair up
the tokens and keep the first component until the marker `from`
followed by a `;`-terminated token. -/
def collectSubject : List String → List String
  | t1 :: t2 :: rest =>
    if t1 = "from" ∧ t2.data.getLast? = some ';' then []
    else t1 :: collectSubject (t2 :: rest)
  | _ => []

/-- The method `PostfixLogParser._try_to_parse_subject`, on the content
tokens (`tokens[4:]` of the line).  Index accesses beyond the end raise
`IndexError`; a failed MIME decode raises; on a match the subject is
stored into the record of `queue_id`. -/
def _try_to_parse_subject (st : StateMap) (queue_id : String) (tokens : List String) :
    Except String (StateMap × Bool) :=
  match tokens[0]? with
  | none => .error "IndexError"
  | some t0 =>
  if t0 ≠ "warning:" then .ok (st, false) else
  match tokens[1]? with
  | none => .error "IndexError"
  | some t1 =>
  if t1 ≠ "header" then .ok (st, false) else
  match tokens[2]? with
  | none => .error "IndexError"
  | some t2 =>
  if t2 ≠ "Subject:" then .ok (st, false) else
  match tokens[3]? with
  | none => .error "IndexError"
  | some t3 =>
  if "=?UTF-8".data.isPrefixOf t3.data then
    match decodeMimeWord t3 with
    | none => .error "HeaderDecodeError"
    | some subj =>
      match aget st queue_id with
      | none => .error ("KeyError: " ++ queue_id)
      | some e => .ok (aset st queue_id (aset e "subject" (.str subj)), true)
  else
    match aget st queue_id with
    | none => .error ("KeyError: " ++ queue_id)
    | some e =>
      .ok (aset st queue_id
        (aset e "subject" (.str (joinSpace (collectSubject (tokens.drop 3))))), true)

/-- The method `PostfixLogParser._handle_special_postfix_cases`, on the
content tokens (`tokens[4:]` of the line).  For a `removed` marker the
event is built first and the record deleted only afterwards, so a
failing build leaves the record in place. -/
def _handle_special_postfix_cases (st : StateMap) (queue_id : String)
    (tokens : List String) : Except String (StateMap × List PostfixEvent × Bool) :=
  match tokens[0]? with
  | none => .error "IndexError"
  | some t0 =>
    if t0 = "removed" then
      match aget st queue_id with
      | none => .error ("KeyError: " ++ queue_id)
      | some entry =>
        match buildEvent queue_id entry with
        | .error e => .error e
        | .ok ev => .ok (adel st queue_id, [ev], true)
    else
      match _try_to_parse_subject st queue_id tokens with
      | .error e => .error e
      | .ok (st2, b) => .ok (st2, [], b)

/-- The compound condition of `_handle_dovecot_case`, with Python
evaluation order: each token access may raise `IndexError` before the
comparison short-circuits the rest. -/
def dovecotCond (tokens : List String) : Except String Bool :=
  match tokens[4]? with
  | none => .error "IndexError"
  | some t4 =>
  if t4 ≠ "Info:" then .ok false else
  match tokens[5]? with
  | none => .error "IndexError"
  | some t5 =>
  if t5 ≠ "sieve:" then .ok false else
  match tokens[6]? with
  | none => .error "IndexError"
  | some t6 =>
  if ¬ ("msgid=".data.isPrefixOf t6.data) then .ok false else
  match tokens[7]? with
  | none => .error "IndexError"
  | some t7 =>
  if t7 ≠ "fileinto" then .ok false else
  match tokens[8]? with
  | none => .error "IndexError"
  | some t8 => .ok (t8 = "action:")

/-- The per-record update of the dovecot loop: a record whose
`message-id` equals the extracted id receives the action text. -/
def dovecotUpdate (msgid action : String) (e : Entry) : Entry :=
  if aget e "message-id" = some (.str msgid) then
    aset e "dovecot_fileinto_action" (.str action)
  else e

/-- The method `PostfixLogParser._handle_dovecot_case`: when the fixed
token pattern matches, extract the message id from token 6 (part after
the first `=`, last character dropped) and update every open record
whose `message-id` equals it with the joined action text.  The function
always answers `false`. -/
def _handle_dovecot_case (st : StateMap) (tokens : List String) :
    Except String (StateMap × Bool) :=
  match dovecotCond tokens with
  | .error e => .error e
  | .ok false => .ok (st, false)
  | .ok true =>
    match tokens[6]? with
    | none => .error "IndexError"
    | some t6 =>
      match pySplitOnce '=' t6 with
      | none => .error "ValueError"
      | some p =>
        let msgid := pyDropLast p.2
        let action := joinSpace (tokens.drop 9)
        .ok (st.map (fun kv => (kv.1, dovecotUpdate msgid action kv.2)), false)

/-- The engine state (`PostfixLogParser` attributes). -/
structure Parser : Type where
  state : StateMap
  next_cleanup : Int
  cleanup_interval : Int
deriving DecidableEq, Repr

/-- The constructor `PostfixLogParser.__init__`, given the current
time. -/
def initParser (tnow : Int) : Parser :=
  { state := [], next_cleanup := tnow + oneMinute, cleanup_interval := oneMinute }

/-- The dict-comprehension filter of `_cleanup_old_entities`: keep a
record when `now - record["timestamp"] < OLD_LOGS`; a record whose
`timestamp` is missing or not a datetime raises, aborting the whole
sweep (the comprehension result is then never assigned). -/
def cleanupFilter (tnow : Int) : StateMap → Except String StateMap
  | [] => .ok []
  | (k, e) :: rest =>
    match aget e "timestamp" with
    | none => .error "KeyError: timestamp"
    | some (.time t) =>
      match cleanupFilter tnow rest with
      | .error err => .error err
      | .ok r => if tnow - t < OLD_LOGS then .ok ((k, e) :: r) else .ok r
    | some _ => .error "TypeError"

/-- The method `PostfixLogParser._cleanup_old_entities`: a no-op before
the scheduled time; otherwise reschedule to `now + cleanup_interval`
and filter the store.  A raised error escapes `feed_line` uncaught (the
call sits outside the `try`). -/
def _cleanup_old_entities (p : Parser) (tnow : Int) : Except String Parser :=
  if p.next_cleanup > tnow then .ok p
  else
    match cleanupFilter tnow p.state with
    | .error e => .error e
    | .ok st =>
      .ok { state := st, next_cleanup := tnow + p.cleanup_interval,
            cleanup_interval := p.cleanup_interval }

/-- Outcome of the `try` block of `feed_line`: the mutated store, the
events handed to `on_event`, and the caught exception, if one was
raised (mutations made before the raise persist). -/
structure BodyResult : Type where
  state : StateMap
  events : List PostfixEvent
  err : Option String
deriving DecidableEq, Repr

/-- A silent return from the `try` block. -/
def bodyPure (st : StateMap) : BodyResult := ⟨st, [], none⟩

/-- The `raw_log` update of `feed_line`: create the singleton list or
append; `append` on a non-list raises `AttributeError`. -/
def rawLogAppend (entry : Entry) (s : String) : Except String Entry :=
  match aget entry "raw_log" with
  | none => .ok (aset entry "raw_log" (.strList [s]))
  | some (.strList l) => .ok (aset entry "raw_log" (.strList (l ++ [s])))
  | some _ => .error "AttributeError"

/-- The tail of `feed_line` once the queue id is accepted: get-or-create
the record, append the raw line, set the first-seen timestamp if absent,
run the special cases, and otherwise extract fields. -/
def afterQueueId (st : StateMap) (s : String) (tokens : List String) (ts : Int)
    (qid : String) : BodyResult :=
  let st2 := if (aget st qid).isSome then st else st ++ [(qid, ([] : Entry))]
  let entry := (aget st2 qid).getD []
  match rawLogAppend entry s with
  | .error e => ⟨st2, [], some e⟩
  | .ok e1 =>
    let e2 := if (aget e1 "timestamp").isSome then e1 else aset e1 "timestamp" (.time ts)
    let st3 := aset st2 qid e2
    match _handle_special_postfix_cases st3 qid (tokens.drop 4) with
    | .error e => ⟨st3, [], some e⟩
    | .ok (st4, evs, true) => ⟨st4, evs, none⟩
    | .ok (st4, _, false) =>
      match _set_fields e2 tokens with
      | (e3, some err) => ⟨aset st4 qid e3, [], some err⟩
      | (e3, none) => ⟨aset st4 qid e3, [], none⟩

/-- The `try` block of `feed_line` over the current store. -/
def feedTokens (st : StateMap) (s : String) : BodyResult :=
  let tokens := pySplitWs s
  if tokens.length < 5 then bodyPure st
  else
    match _handle_dovecot_case st tokens with
    | .error e => ⟨st, [], some e⟩
    | .ok (st1, true) => bodyPure st1
    | .ok (st1, false) =>
      match parseIso (tokens.headD "") with
      | none => bodyPure st1
      | some ts =>
        let t3 := tokens[3]?.getD ""
        if is_queue_id t3 then afterQueueId st1 s tokens ts (pyDropLast t3)
        else bodyPure st1

/-- Observable outcome of one `feed_line` call: the engine state, the
events passed to `on_event`, and the `(line, error)` pairs passed to
`on_fault`. -/
structure FeedResult : Type where
  parser : Parser
  events : List PostfixEvent
  faults : List (String × String)
deriving DecidableEq, Repr

/-- The method `PostfixLogParser.feed_line`: run the eviction sweeper
(outside the `try`; its errors escape as `.error`), then the guarded
body; a caught exception becomes a single `on_fault` record. -/
def feed_line (p : Parser) (tnow : Int) (s : String) : Except String FeedResult :=
  match _cleanup_old_entities p tnow with
  | .error e => .error e
  | .ok p1 =>
    let b := feedTokens p1.state s
    .ok ⟨{ state := b.state, next_cleanup := p1.next_cleanup,
           cleanup_interval := p1.cleanup_interval }, b.events,
         match b.err with
         | some e => [(s, e)]
         | none => []⟩

/-- Transcribed from the words of claim C3: exactly 12 characters, the
last being a colon, the preceding 11 uppercase hexadecimal digits. -/
def claimQueueIdSpec (s : String) : Bool :=
  s.data.length == 12 && s.data.getLast? == some ':'
    && (s.data.take 11).all (fun c => hexDigits.contains c)

/-- Transcribed from the words of claim C2: the first qualifying
adjacent pair of status-description tokens. -/
def claimFirstStatusPair (desc : String) : Option (Nat × String) :=
  ((pairwise (pySplitWs desc)).filter validStatusPair).head?.map
    (fun p => (strToNat p.1, p.2))

/-- Concrete record input for the claim C2 witness. -/
def objC2w : Entry :=
  [("timestamp", .time 0), ("from", .str "<a@b>"), ("to", .strList ["<c@d>"]),
   ("message-id", .str "<m>"), ("status", .str "sent"),
   ("status_description", .str "250 2.0.0 ok"), ("raw_log", .strList ["x"])]

/-- The event the engine builds from `objC2w`. -/
def evC2w : PostfixEvent :=
  { timestamp := .time 0, queue_id := "Q", message_from := "a@b",
    message_to := ["c@d"], message_id := "m", status := .str "sent",
    status_description := .str "250 2.0.0 ok", raw_log := .strList ["x"],
    domain_from := "b", domains_to := ["d"], status_code := some 250,
    status_postfix_code := some "2.0.0", dovecot_fileinto_action := none,
    message_subject := none, client := none, orig_to := none, delay := none,
    delays := none, dsn := none, nrcpt := none, relay := none, size := none }

/-- Concrete record input for the claim C2 counterexample: its status
description contains two qualifying pairs. -/
def objC2x : Entry :=
  [("timestamp", .time 0), ("from", .str "<a@b>"), ("to", .strList ["<c@d>"]),
   ("message-id", .str "<m>"), ("status", .str "sent"),
   ("status_description", .str "100 1.0.0 200 2.0.0"), ("raw_log", .strList ["x"])]

instance {ε α : Type} [DecidableEq ε] [DecidableEq α] : DecidableEq (Except ε α) :=
  fun x y =>
    match x, y with
    | .ok a, .ok b =>
      if h : a = b then .isTrue (by rw [h])
      else .isFalse (fun hh => h (by cases hh; rfl))
    | .error a, .error b =>
      if h : a = b then .isTrue (by rw [h])
      else .isFalse (fun hh => h (by cases hh; rfl))
    | .ok _, .error _ => .isFalse (fun hh => Except.noConfusion hh)
    | .error _, .ok _ => .isFalse (fun hh => Except.noConfusion hh)

/-- Concrete two-record store for the claim C4 counterexample: both
records carry the same message id. -/
def stC4x : StateMap :=
  [("A", [("message-id", Val.str "<m>")]), ("B", [("message-id", Val.str "<m>")])]

/-- The secondary-subsystem line tokens used against `stC4x`. -/
def tokensC4x : List String :=
  ["Apr", "30", "15:09:27", "x:", "Info:", "sieve:", "msgid=<m>:", "fileinto",
   "action:", "stored", "mail"]

/-- Single-record store for the claim C4 witness. -/
def stC4w : StateMap := [("A", [("message-id", Val.str "<w>")])]

/-- The secondary-subsystem line tokens used against `stC4w`. -/
def tokensC4w : List String :=
  ["a", "b", "c", "d", "Info:", "sieve:", "msgid=<w>:", "fileinto", "action:", "kept"]

/-- The `to=` values of a token list, in order, trailing commas
stripped (the accumulation source of `_set_fields`). -/
def toValues (tokens : List String) : List String :=
  tokens.filterMap (fun t =>
    match splitKeyValue t with
    | some (n, v) => if n = "to" then some v else none
    | none => none)

/-- Concrete record for the claim C7 witness. -/
def entryC7w : Entry := [("to", Val.strList ["<a@x>"])]

/-- Concrete token list for the claim C7 witness. -/
def tokensC7w : List String := ["to=<b@y>,"]

/-- The record after running the field extractor on `tokensC7w`. -/
def entryC7r : Entry := [("to", Val.strList ["<a@x>", "<b@y>"])]

/-- The key part of a `key=value` token (`none` when the token has no
`=`). -/
def statusTokenName (t : String) : Option String := (splitKeyValue t).map Prod.fst

/-- Index of the last token whose key part is `status`, the index the
loop of `_set_fields` ends up remembering. -/
def lastStatusIdx : List String → Option Nat
  | [] => none
  | t :: rest =>
    match lastStatusIdx rest with
    | some j => some (j + 1)
    | none => if statusTokenName t = some "status" then some 0 else none

/-- Transcribed from the words of claim C8: a single leading `(` and a
single trailing `)` removed, not repeated stripping. -/
def claimSingleStrip (s : String) : String :=
  let s1 := if s.data.head? = some '(' then String.mk s.data.tail else s
  if s1.data.getLast? = some ')' then String.mk s1.data.dropLast else s1

/-- The record produced by the field extractor in the claim C8
witness. -/
def entryC8w : Entry := [("status", Val.str "sent"), ("status_description", Val.str "ok")]

/-- Record for the claim C1 witness: only the automatic fields are
present, every upstream field is missing. -/
def eC1w : Entry := [("raw_log", Val.strList ["x"]), ("timestamp", Val.time 0)]

/-- Parser state for the claim C1 witness. -/
def pC1w : Parser :=
  { state := [("0123456789A", eC1w)], next_cleanup := 60000000,
    cleanup_interval := 60000000 }

/-- The completion line fed in the claim C1 witness. -/
def lineC1w : String := "2024-04-09 h p 0123456789A: removed"

/-- Record for the claim C1 counterexample. -/
def eC1x : Entry := [("raw_log", Val.strList ["y"]), ("timestamp", Val.time 0)]

/-- Parser state for the claim C1 counterexample. -/
def pC1x : Parser :=
  { state := [("AAAAAAAAAAA", eC1x)], next_cleanup := 60000000,
    cleanup_interval := 60000000 }

/-- The completion line fed in the claim C1 counterexample. -/
def lineC1x : String := "2024-04-09 h p AAAAAAAAAAA: removed"

/-- Record for the claim C9 witness. -/
def eC9w : Entry := [("raw_log", Val.strList ["x"]), ("timestamp", Val.time 5)]

/-- Parser for the claim C9 witness. -/
def pC9w : Parser :=
  { state := [("0123456789A", eC9w)], next_cleanup := 60000000,
    cleanup_interval := 60000000 }

/-- The line fed in the claim C9 witness. -/
def lineC9w : String := "2024-04-09 h p 0123456789A: client=c"

/-- The record after the claim C9 witness line. -/
def eC9wAfter : Entry :=
  [("raw_log", Val.strList ["x", lineC9w]), ("timestamp", Val.time 5),
   ("client", Val.str "c")]

/-- The engine outcome in the claim C9 witness. -/
def rC9w : FeedResult :=
  { parser := { state := [("0123456789A", eC9wAfter)], next_cleanup := 60000000,
                cleanup_interval := 60000000 },
    events := [], faults := [] }

/-- First line of the claim C9 counterexample. -/
def lineC9x1 : String := "2024-04-09 h p 0123456789A: client=c"

/-- Second line of the claim C9 counterexample: it carries a
`timestamp=` token. -/
def lineC9x2 : String := "2024-04-10 h p 0123456789A: timestamp=x"

/-- A record carrying both automatic keys (`timestamp`, `raw_log`),
whatever their values. -/
def hasCoreKeys (e : Entry) : Prop :=
  (aget e "timestamp").isSome ∧ (aget e "raw_log").isSome

/-- Every record of the store carries both automatic keys. -/
def stateWF (st : StateMap) : Prop := ∀ kv ∈ st, hasCoreKeys kv.2

instance (e : Entry) : Decidable (hasCoreKeys e) := by
  unfold hasCoreKeys
  infer_instance

instance (st : StateMap) : Decidable (stateWF st) := by
  unfold stateWF
  infer_instance

/-- The line of the claim C10 counterexample: a `timestamp=` token. -/
def lineC10x : String := "2024-04-09 h p 0123456789A: timestamp=x"

/-- The queue id a structurally valid line is routed to. -/
def lineQueueId (s : String) : Option String :=
  let tokens := pySplitWs s
  if tokens.length < 5 then none
  else
    match parseIso (tokens.headD "") with
    | none => none
    | some _ =>
      if is_queue_id (tokens[3]?.getD "") then some (pyDropLast (tokens[3]?.getD ""))
      else none

/-- Record for the claim C5 witness. -/
def eC5w : Entry := [("timestamp", Val.time 0), ("raw_log", Val.strList ["x"])]

/-- Parser for the claim C5 witness. -/
def pC5w : Parser :=
  { state := [("AAAAAAAAAAA", eC5w)], next_cleanup := 60000000,
    cleanup_interval := 60000000 }

/-- Parser for the claim C5 counterexample: one record of age exactly
ten minutes at the sweep. -/
def pC5x : Parser :=
  { state := [("AAAAAAAAAAA", [("timestamp", Val.time 0)])], next_cleanup := 0,
    cleanup_interval := 60000000 }

theorem aget_aset_self {α : Type} (l : List (String × α)) (k : String) (v : α) :
    aget (aset l k v) k = some v := by
  induction l with
  | nil => simp [aget, aset]
  | cons p rest ih =>
    by_cases h : p.1 = k
    · simp [aset, h, aget]
    · simp [aset, h, aget, ih]

theorem aget_aset_ne {α : Type} (l : List (String × α)) (k k' : String) (v : α)
    (h : k' ≠ k) : aget (aset l k v) k' = aget l k' := by
  induction l with
  | nil => simp [aget, aset, Ne.symm h]
  | cons p rest ih =>
    by_cases hp : p.1 = k
    · have hk' : ¬(k = k') := fun hh => h hh.symm
      have hq : ¬(p.1 = k') := fun hh => h (by rw [← hh, hp])
      simp [aset, hp, aget, hk', hq]
    · by_cases hp' : p.1 = k'
      · simp [aset, hp, aget, hp', h]
      · simp [aset, hp, aget, hp', ih]

theorem aget_adel_self {α : Type} (l : List (String × α)) (k : String) :
    aget (adel l k) k = none := by
  induction l with
  | nil => simp [adel, aget]
  | cons p rest ih =>
    by_cases h : p.1 = k
    · simp [adel, h, ih]
    · simp [adel, h, aget, ih]

theorem aget_adel_ne {α : Type} (l : List (String × α)) (k k' : String)
    (h : k' ≠ k) : aget (adel l k) k' = aget l k' := by
  induction l with
  | nil => simp [adel]
  | cons p rest ih =>
    by_cases hp : p.1 = k
    · have hk' : ¬(k = k') := fun hh => h hh.symm
      simp [adel, hp, aget, ih, hk']
    · simp [adel, hp, aget, ih]

theorem aget_append_of_none {α : Type} (l : List (String × α)) (k : String) (v : α)
    (h : aget l k = none) : aget (l ++ [(k, v)]) k = some v := by
  induction l with
  | nil => simp [aget]
  | cons p rest ih =>
    by_cases hp : p.1 = k
    · simp [aget, hp] at h
    · simp [aget, hp] at h ⊢
      exact ih h

theorem aget_append_ne {α : Type} (l : List (String × α)) (k k' : String) (v : α)
    (h : k' ≠ k) : aget (l ++ [(k, v)]) k' = aget l k' := by
  induction l with
  | nil => simp [aget, Ne.symm h]
  | cons p rest ih =>
    by_cases hp : p.1 = k'
    · simp [aget, hp]
    · simp [aget, hp, ih]

theorem aget_map {α β : Type} (f : α → β) (l : List (String × α)) (k : String) :
    aget (l.map (fun kv => (kv.1, f kv.2))) k = (aget l k).map f := by
  induction l with
  | nil => simp [aget]
  | cons p rest ih =>
    by_cases hp : p.1 = k
    · simp [aget, hp]
    · simp [aget, hp, ih]

theorem aget_aset_isSome {α : Type} (l : List (String × α)) (k k' : String) (v : α)
    (h : (aget l k').isSome) : (aget (aset l k v) k').isSome := by
  by_cases hk : k' = k
  · subst hk; simp [aget_aset_self]
  · rwa [aget_aset_ne _ _ _ _ hk]

/-- C3: the claim states the classifier accepts a token iff it has
exactly 12 characters, the last a colon, the first 11 uppercase hex
digits.  The code never inspects the last character, so the accurate
characterization (proved here) is: accepted iff the token has exactly
12 characters whose first 11 are uppercase hexadecimal digits. -/
theorem claim_C3 (s : String) :
    is_queue_id s = true ↔
      s.data.length = 12 ∧ ∀ c ∈ s.data.take 11, c ∈ hexDigits := by
  unfold is_queue_id
  rw [Bool.and_eq_true, beq_iff_eq, List.all_eq_true]
  constructor
  · rintro ⟨h1, h2⟩
    refine ⟨h1, fun c hc => ?_⟩
    have hd : s.data.dropLast = s.data.take 11 := by
      rw [List.dropLast_eq_take, h1]
    have := h2 c (by rw [hd]; exact hc)
    simpa [List.contains, List.elem_iff] using this
  · rintro ⟨h1, h2⟩
    refine ⟨h1, fun c hc => ?_⟩
    have hd : s.data.dropLast = s.data.take 11 := by
      rw [List.dropLast_eq_take, h1]
    rw [hd] at hc
    simpa [List.contains, List.elem_iff] using h2 c hc

/-- C3 counterexample: `"0123456789AB"` has 12 characters whose first 11
are uppercase hex, but its last character is `B`, not a colon; the
classifier accepts it although the claim requires rejection. -/
theorem claim_C3_counterexample :
    is_queue_id "0123456789AB" = true ∧ claimQueueIdSpec "0123456789AB" = false := by
  decide

theorem getLast?_cons_getD {α : Type} (x : α) (ys : List α) :
    (x :: ys).getLast? = some (ys.getLast?.getD x) := by
  induction ys generalizing x with
  | nil => rfl
  | cons y t ih => rw [List.getLast?_cons_cons, ih y]; simp [ih]

theorem foldl_last_qualifying (l : List (String × String)) (a : Option (Nat × String)) :
    l.foldl (fun acc p => if validStatusPair p then some (strToNat p.1, p.2) else acc) a
      = match (l.filter validStatusPair).getLast? with
        | some p => some (strToNat p.1, p.2)
        | none => a := by
  induction l generalizing a with
  | nil => simp
  | cons x xs ih =>
    rw [List.foldl_cons, ih]
    by_cases hx : validStatusPair x
    · rw [List.filter_cons_of_pos hx, getLast?_cons_getD]
      cases h : (xs.filter validStatusPair).getLast? with
      | none => simp [h, hx]
      | some p => simp [h, hx]
    · rw [List.filter_cons_of_neg (by simpa using hx)]
      simp [hx]

theorem readVal_ok {obj : Entry} {k : String} {v : Val}
    (h : readVal obj k = .ok v) : aget obj k = some v := by
  unfold readVal at h
  cases hg : aget obj k with
  | none => rw [hg] at h; cases h
  | some w => rw [hg] at h; cases h; rfl

/-- Inversion of the status-description split step of the event
constructor. -/
theorem statusPairOf_ok {v : Val} {sp : Option (Nat × String)}
    (h : statusPairOf v = .ok sp) : ∃ d, v = Val.str d ∧ sp = parse_status_code d := by
  cases v with
  | str d => exact ⟨d, rfl, by injection h with h2; exact h2.symm⟩
  | strList l => cases h
  | time t => cases h

/-- Inversion of a successful `buildEvent`: the status fields are the
result of `parse_status_code` on the status-description string. -/
theorem buildEvent_ok_status {qid : String} {obj : Entry} {ev : PostfixEvent}
    (h : buildEvent qid obj = .ok ev) :
    ∃ d, ev.status_description = Val.str d
      ∧ ev.status_code = (parse_status_code d).map Prod.fst
      ∧ ev.status_postfix_code = (parse_status_code d).map Prod.snd := by
  unfold buildEvent at h
  repeat' split at h
  any_goals exact Except.noConfusion h
  rename_i sp hsp
  obtain ⟨d, rfl, rfl⟩ := statusPairOf_ok hsp
  injection h with h2
  subst h2
  exact ⟨d, rfl, rfl, rfl⟩


/-- C2: the claim states the FIRST qualifying adjacent pair of the
status-description tokens determines the status codes.  The loop in
`parse_status_code` has no break, so in fact the LAST qualifying pair
wins (and with no qualifying pair both fields stay unset); this
result proves the amended statement against the event builder. -/
theorem claim_C2 :
    (∀ qid obj ev, buildEvent qid obj = .ok ev →
      ∃ d, ev.status_description = Val.str d
        ∧ ev.status_code = (parse_status_code d).map Prod.fst
        ∧ ev.status_postfix_code = (parse_status_code d).map Prod.snd)
    ∧ (∀ d, parse_status_code d =
        ((pairwise (pySplitWs d)).filter validStatusPair).getLast?.map
          (fun p => (strToNat p.1, p.2))) := by
  constructor
  · exact fun qid obj ev h => buildEvent_ok_status h
  · intro d
    unfold parse_status_code
    rw [foldl_last_qualifying]
    cases (pairwise (pySplitWs d)).filter validStatusPair |>.getLast? <;> simp

/-- C2 counterexample: on the description `"100 1.0.0 200 2.0.0"` the
first qualifying pair is `(100, "1.0.0")` but the engine derives
`(200, "2.0.0")` from the last one; the built event carries status
code 200. -/
theorem claim_C2_counterexample :
    claimFirstStatusPair "100 1.0.0 200 2.0.0" = some (100, "1.0.0")
    ∧ parse_status_code "100 1.0.0 200 2.0.0" = some (200, "2.0.0")
    ∧ (match buildEvent "Q" objC2x with
       | .ok ev => ev.status_code
       | .error _ => none) = some 200 := by
  decide

/-- C2 witness: the amended theorem applied to a concrete record. -/
theorem claim_C2_witness :
    ∃ d, evC2w.status_description = Val.str d
      ∧ evC2w.status_code = (parse_status_code d).map Prod.fst
      ∧ evC2w.status_postfix_code = (parse_status_code d).map Prod.snd :=
  claim_C2.1 "Q" objC2w evC2w (by decide)

theorem dovecot_map_id (msgid action : String) (st : StateMap)
    (h : ∀ kv ∈ st, aget kv.2 "message-id" ≠ some (Val.str msgid)) :
    st.map (fun kv => (kv.1, dovecotUpdate msgid action kv.2)) = st := by
  induction st with
  | nil => rfl
  | cons p rest ih =>
    have hp := h p (by simp)
    have h1 : dovecotUpdate msgid action p.2 = p.2 := by
      unfold dovecotUpdate
      rw [if_neg hp]
    simp only [List.map_cons, h1, Prod.mk.eta]
    rw [ih (fun kv hkv => h kv (by simp [hkv]))]

/-- C4: the claim states that with several matching open records only
the first in iteration order receives the action text.  The loop in
`_handle_dovecot_case` has no break, so every matching record is
updated; zero matches leave the store unchanged.  This result proves
that amended behavior. -/
theorem claim_C4 (st : StateMap) (tokens : List String) (t6 n v : String)
    (hc : dovecotCond tokens = .ok true)
    (h6 : tokens[6]? = some t6)
    (hsplit : pySplitOnce '=' t6 = some (n, v)) :
    (_handle_dovecot_case st tokens
      = .ok (st.map (fun kv =>
          (kv.1, dovecotUpdate (pyDropLast v) (joinSpace (tokens.drop 9)) kv.2)), false))
    ∧ (∀ k, aget (st.map (fun kv =>
          (kv.1, dovecotUpdate (pyDropLast v) (joinSpace (tokens.drop 9)) kv.2))) k
        = (aget st k).map (dovecotUpdate (pyDropLast v) (joinSpace (tokens.drop 9))))
    ∧ ((∀ kv ∈ st, aget kv.2 "message-id" ≠ some (Val.str (pyDropLast v))) →
        _handle_dovecot_case st tokens = .ok (st, false)) := by
  have hmain : _handle_dovecot_case st tokens
      = .ok (st.map (fun kv =>
          (kv.1, dovecotUpdate (pyDropLast v) (joinSpace (tokens.drop 9)) kv.2)), false) := by
    simp only [_handle_dovecot_case, hc, h6, hsplit]
  refine ⟨hmain, fun k => aget_map _ st k, fun hno => ?_⟩
  rw [hmain, dovecot_map_id _ _ _ hno]

/-- C4 counterexample: with two open records matching the message id,
the scan updates both, not only the first in iteration order. -/
theorem claim_C4_counterexample :
    _handle_dovecot_case stC4x tokensC4x
      = .ok ([("A", [("message-id", Val.str "<m>"),
                     ("dovecot_fileinto_action", Val.str "stored mail")]),
              ("B", [("message-id", Val.str "<m>"),
                     ("dovecot_fileinto_action", Val.str "stored mail")])], false)
    ∧ (match _handle_dovecot_case stC4x tokensC4x with
       | .ok (st2, _) => (aget st2 "B").bind (fun e => aget e "dovecot_fileinto_action")
       | .error _ => none) = some (Val.str "stored mail") := by
  decide

/-- C4 witness: the amended theorem applied to a concrete store. -/
theorem claim_C4_witness :
    _handle_dovecot_case stC4w tokensC4w
      = .ok (stC4w.map (fun kv =>
          (kv.1, dovecotUpdate (pyDropLast "<w>:") (joinSpace (tokensC4w.drop 9)) kv.2)),
          false) :=
  (claim_C4 stC4w tokensC4w "msgid=<w>:" "msgid" "<w>:"
    (by decide) (by decide) (by decide)).1

theorem set_fields_go_to_some (tokens : List String) :
    ∀ (entry : Entry) (sidx : Option Nat) (idx : Nat) (l0 : List String)
      (e' : Entry) (s' : Option Nat),
      aget entry "to" = some (.strList l0) →
      set_fields_go entry sidx idx tokens = (e', s', none) →
      aget e' "to" = some (.strList (l0 ++ toValues tokens)) := by
  induction tokens with
  | nil =>
    intro entry sidx idx l0 e' s' hto hrun
    unfold set_fields_go at hrun
    cases hrun
    simpa [toValues] using hto
  | cons t rest ih =>
    intro entry sidx idx l0 e' s' hto hrun
    unfold set_fields_go at hrun
    cases hkv : splitKeyValue t with
    | none =>
      simp only [hkv] at hrun
      have := ih entry sidx (idx + 1) l0 e' s' hto hrun
      simpa [toValues, List.filterMap_cons, hkv] using this
    | some p =>
      obtain ⟨n, v⟩ := p
      simp only [hkv] at hrun
      by_cases hn : n = "to"
      · subst hn
        simp only [if_pos rfl, hto] at hrun
        have := ih _ _ _ (l0 ++ [v]) e' s' (aget_aset_self entry "to" _) hrun
        simpa [toValues, List.filterMap_cons, hkv, List.append_assoc] using this
      · simp only [if_neg hn] at hrun
        have hpres : aget (aset entry n (.str v)) "to" = some (.strList l0) := by
          rw [aget_aset_ne _ _ _ _ (fun hh => hn hh.symm)]
          exact hto
        have := ih _ _ _ l0 e' s' hpres hrun
        simpa [toValues, List.filterMap_cons, hkv, hn] using this

theorem set_fields_go_to_none (tokens : List String) :
    ∀ (entry : Entry) (sidx : Option Nat) (idx : Nat) (e' : Entry) (s' : Option Nat),
      aget entry "to" = none →
      set_fields_go entry sidx idx tokens = (e', s', none) →
      aget e' "to" =
        (if toValues tokens = [] then none else some (.strList (toValues tokens))) := by
  induction tokens with
  | nil =>
    intro entry sidx idx e' s' hto hrun
    unfold set_fields_go at hrun
    cases hrun
    simpa [toValues] using hto
  | cons t rest ih =>
    intro entry sidx idx e' s' hto hrun
    unfold set_fields_go at hrun
    cases hkv : splitKeyValue t with
    | none =>
      simp only [hkv] at hrun
      have := ih entry sidx (idx + 1) e' s' hto hrun
      simpa [toValues, List.filterMap_cons, hkv] using this
    | some p =>
      obtain ⟨n, v⟩ := p
      simp only [hkv] at hrun
      by_cases hn : n = "to"
      · subst hn
        simp only [if_pos rfl, hto] at hrun
        have := set_fields_go_to_some rest _ _ _ [v] e' s'
          (aget_aset_self entry "to" _) hrun
        simp [toValues, List.filterMap_cons, hkv] at this ⊢
        simp [this]
      · simp only [if_neg hn] at hrun
        have hpres : aget (aset entry n (.str v)) "to" = none := by
          rw [aget_aset_ne _ _ _ _ (fun hh => hn hh.symm)]
          exact hto
        have := ih _ _ _ e' s' hpres hrun
        simpa [toValues, List.filterMap_cons, hkv, hn] using this

theorem set_fields_to_pres {entry : Entry} {tokens : List String} {e1 e' : Entry}
    {s1 : Option Nat}
    (hgo : set_fields_go entry none 0 tokens = (e1, s1, none))
    (hres : _set_fields entry tokens = (e', none)) :
    aget e' "to" = aget e1 "to" := by
  unfold _set_fields at hres
  cases s1 with
  | none =>
    simp only [hgo] at hres
    have h1 : e1 = e' := congrArg Prod.fst hres
    rw [← h1]
  | some i =>
    simp only [hgo] at hres
    by_cases hi : i ≠ 0
    · rw [if_pos hi] at hres
      simp only [Prod.mk.injEq] at hres
      obtain ⟨h1, -⟩ := hres
      rw [← h1]
      exact aget_aset_ne _ _ _ _ (by decide)
    · rw [if_neg hi] at hres
      have h1 : e1 = e' := congrArg Prod.fst hres
      rw [← h1]

theorem set_fields_run {entry : Entry} {tokens : List String} {e' : Entry}
    (hres : _set_fields entry tokens = (e', none)) :
    ∃ e1 s1, set_fields_go entry none 0 tokens = (e1, s1, none) := by
  unfold _set_fields at hres
  cases hgo : set_fields_go entry none 0 tokens with
  | mk e1 rest =>
    obtain ⟨s1, err⟩ := rest
    cases err with
    | none => exact ⟨e1, s1, rfl⟩
    | some e =>
      simp only [hgo] at hres
      exact absurd (congrArg Prod.snd hres) (by simp)

/-- Full inversion of a successful `buildEvent`: every required key was
present, and every derived field is determined by the record. -/
theorem buildEvent_ok_inv {qid : String} {obj : Entry} {ev : PostfixEvent}
    (h : buildEvent qid obj = .ok ev) :
    aget obj "timestamp" = some ev.timestamp
    ∧ (∃ fv, aget obj "from" = some fv ∧ asStripped fv = .ok ev.message_from)
    ∧ (∃ tv, aget obj "to" = some tv ∧ asMailList tv = .ok ev.message_to)
    ∧ (∃ mv, aget obj "message-id" = some mv ∧ asStripped mv = .ok ev.message_id)
    ∧ aget obj "status" = some ev.status
    ∧ (∃ d, aget obj "status_description" = some (Val.str d)
        ∧ ev.status_description = Val.str d)
    ∧ aget obj "raw_log" = some ev.raw_log
    ∧ ev.queue_id = qid
    ∧ ev.domain_from = _get_domain ev.message_from
    ∧ ev.domains_to = dedupFirst (ev.message_to.map _get_domain) := by
  unfold buildEvent at h
  repeat' split at h
  any_goals exact Except.noConfusion h
  rename_i x1 tsV h1 x2 fv h2 x3 fromS h3 x4 tv h4 x5 mto h5 x6 mv h6 x7 mid h7 x8 stV h8 x9 sdV h9 x10 rlV h10 x11 sp hsp
  obtain ⟨d, rfl, rfl⟩ := statusPairOf_ok hsp
  injection h with h11
  subst h11
  refine ⟨readVal_ok h1, ⟨fv, readVal_ok h2, h3⟩, ⟨tv, readVal_ok h4, h5⟩,
    ⟨mv, readVal_ok h6, h7⟩, readVal_ok h8, ⟨d, readVal_ok h9, rfl⟩,
    readVal_ok h10, rfl, rfl, rfl⟩

theorem splitFirst_none_iff (sep : Char) (l : List Char) :
    splitFirst sep l = none ↔ sep ∉ l := by
  induction l with
  | nil => simp [splitFirst]
  | cons c cs ih =>
    by_cases hc : c = sep
    · simp [splitFirst, hc]
    · simp only [splitFirst, if_neg hc, Option.map_eq_none', ih, List.mem_cons]
      constructor
      · intro hns hor
        rcases hor with he | hm
        · exact hc he.symm
        · exact hns hm
      · intro hall hm
        exact hall (Or.inr hm)

theorem splitFirst_append (sep : Char) (xs ys : List Char) (h : sep ∉ xs) :
    splitFirst sep (xs ++ sep :: ys) = some (xs, ys) := by
  induction xs with
  | nil => simp [splitFirst]
  | cons x xt ih =>
    have hx : ¬(x = sep) := fun hh => h (by rw [hh]; simp)
    have ih2 := ih (fun hh => h (by simp [hh]))
    simp [List.cons_append, splitFirst, if_neg hx, List.append_eq, ih2]

theorem get_domain_no_at (m : String) (h : '@' ∉ m.data) : _get_domain m = m := by
  unfold _get_domain pySplitOnce
  rw [(splitFirst_none_iff _ _).2 h]
  rfl

theorem get_domain_at (pre post : String) (h : '@' ∉ pre.data) :
    _get_domain (String.mk (pre.data ++ '@' :: post.data)) = post := by
  unfold _get_domain pySplitOnce
  have hd : (String.mk (pre.data ++ '@' :: post.data)).data
      = pre.data ++ '@' :: post.data := rfl
  rw [hd, splitFirst_append '@' _ _ h]
  show String.mk post.data = post
  cases post
  rfl

/-- C7: for every completed transaction the recipient list is the
accumulated `to=` values in arrival order, duplicates kept, angle
brackets stripped; the recipient-domain list is the first-seen-order
deduplication of their domains; and the domain of an address is the
part after the first `@`, or the whole address without one. -/
theorem claim_C7 :
    (∀ (entry : Entry) (tokens : List String) (l0 : List String) (e' : Entry),
      aget entry "to" = some (.strList l0) →
      _set_fields entry tokens = (e', none) →
      aget e' "to" = some (.strList (l0 ++ toValues tokens)))
    ∧ (∀ (entry : Entry) (tokens : List String) (e' : Entry),
      aget entry "to" = none →
      _set_fields entry tokens = (e', none) →
      aget e' "to" =
        (if toValues tokens = [] then none else some (.strList (toValues tokens))))
    ∧ (∀ (qid : String) (obj : Entry) (ev : PostfixEvent) (l : List String),
      buildEvent qid obj = .ok ev →
      aget obj "to" = some (.strList l) →
      ev.message_to = l.map pyStripAngles
        ∧ ev.domains_to = dedupFirst (ev.message_to.map _get_domain))
    ∧ (∀ pre post : String, '@' ∉ pre.data →
        _get_domain (String.mk (pre.data ++ '@' :: post.data)) = post)
    ∧ (∀ m : String, '@' ∉ m.data → _get_domain m = m) := by
  refine ⟨?_, ?_, ?_, get_domain_at, get_domain_no_at⟩
  · intro entry tokens l0 e' hto hres
    obtain ⟨e1, s1, hgo⟩ := set_fields_run hres
    rw [set_fields_to_pres hgo hres]
    exact set_fields_go_to_some tokens entry none 0 l0 e1 s1 hto hgo
  · intro entry tokens e' hto hres
    obtain ⟨e1, s1, hgo⟩ := set_fields_run hres
    rw [set_fields_to_pres hgo hres]
    exact set_fields_go_to_none tokens entry none 0 e1 s1 hto hgo
  · intro qid obj ev l hok hto
    obtain ⟨-, -, ⟨tv, htv, hml⟩, -, -, -, -, -, -, hdom⟩ := buildEvent_ok_inv hok
    rw [hto] at htv
    injection htv with htv2
    subst htv2
    have hml2 : ev.message_to = l.map pyStripAngles := by
      injection hml with h2
      exact h2.symm
    exact ⟨hml2, hdom⟩

/-- C7 witness: the theorem applied to concrete inputs — the `to`
accumulation keeps order, and a concrete domain computation. -/
theorem claim_C7_witness :
    aget entryC7r "to" = some (.strList (["<a@x>"] ++ toValues tokensC7w))
    ∧ _get_domain (String.mk ("max1".data ++ '@' :: "localhost".data)) = "localhost" :=
  ⟨claim_C7.1 entryC7w tokensC7w ["<a@x>"] entryC7r (by decide) (by decide),
   claim_C7.2.2.2.1 "max1" "localhost" (by decide)⟩

theorem set_fields_go_sidx (tokens : List String) :
    ∀ (entry : Entry) (s0 : Option Nat) (i0 : Nat) (e' : Entry) (sOut : Option Nat),
      set_fields_go entry s0 i0 tokens = (e', sOut, none) →
      sOut = match lastStatusIdx tokens with
             | some j => some (i0 + j)
             | none => s0 := by
  induction tokens with
  | nil =>
    intro entry s0 i0 e' sOut hrun
    unfold set_fields_go at hrun
    have h2 : s0 = sOut := congrArg (fun q => q.2.1) hrun
    simp [lastStatusIdx, ← h2]
  | cons t rest ih =>
    intro entry s0 i0 e' sOut hrun
    unfold set_fields_go at hrun
    cases hkv : splitKeyValue t with
    | none =>
      simp only [hkv] at hrun
      have := ih entry s0 (i0 + 1) e' sOut hrun
      have hname : statusTokenName t = none := by
        simp [statusTokenName, hkv]
      rw [this]
      simp only [lastStatusIdx]
      cases hrest : lastStatusIdx rest with
      | some j => simp only [hrest, Option.some.injEq]; omega
      | none => simp [hrest, hname]
    | some p =>
      obtain ⟨n, v⟩ := p
      simp only [hkv] at hrun
      have hname : statusTokenName t = some n := by
        simp [statusTokenName, hkv]
      have hstep : ∀ entry2,
          set_fields_go entry2 (if n = "status" then some i0 else s0) (i0 + 1) rest
            = (e', sOut, none) →
          sOut = match lastStatusIdx (t :: rest) with
                 | some j => some (i0 + j)
                 | none => s0 := by
        intro entry2 h2
        have := ih entry2 _ (i0 + 1) e' sOut h2
        rw [this]
        simp only [lastStatusIdx]
        cases hrest : lastStatusIdx rest with
        | some j => simp only [hrest, Option.some.injEq]; omega
        | none =>
          by_cases hns : n = "status"
          · simp [hrest, hname, hns]
          · simp [hrest, hname, hns]
      by_cases hn : n = "to"
      · rw [if_pos hn] at hrun
        cases hto : aget entry "to" with
        | none =>
          simp only [hto] at hrun
          exact hstep _ hrun
        | some w =>
          simp only [hto] at hrun
          cases w with
          | strList l => exact hstep _ hrun
          | str s2 =>
            exact absurd (congrArg (fun q => q.2.2) hrun) (by simp)
          | time t2 =>
            exact absurd (congrArg (fun q => q.2.2) hrun) (by simp)
      · rw [if_neg hn] at hrun
        exact hstep _ hrun

/-- C8: the claim states exactly one leading `(` and one trailing `)`
are removed from the joined text after the status token.  The code uses
`lstrip`/`rstrip`, which strip the whole leading run of `(` and the
whole trailing run of `)`; this result proves the amended statement
(the status token being the last one, at a nonzero index). -/
theorem claim_C8 (entry : Entry) (tokens : List String) (i : Nat) (e' : Entry)
    (hi : lastStatusIdx tokens = some i) (h0 : i ≠ 0)
    (hres : _set_fields entry tokens = (e', none)) :
    aget e' "status_description"
      = some (.str (pyRstripAll ')' (pyLstripAll '(' (joinSpace (tokens.drop (i + 1)))))) := by
  obtain ⟨e1, s1, hgo⟩ := set_fields_run hres
  have hs := set_fields_go_sidx tokens entry none 0 e1 s1 hgo
  rw [hi] at hs
  simp only [Nat.zero_add] at hs
  unfold _set_fields at hres
  simp only [hgo, hs] at hres
  rw [if_pos h0] at hres
  obtain ⟨h1, -⟩ := Prod.mk.injEq .. |>.mp hres
  rw [← h1]
  exact aget_aset_self _ _ _

/-- C8 counterexample: for the token list `["t", "status=sent",
"((x))"]` the engine stores `"x"`, while the claim predicts `"(x)"`. -/
theorem claim_C8_counterexample :
    aget (_set_fields [] ["t", "status=sent", "((x))"]).1 "status_description"
      = some (Val.str "x")
    ∧ claimSingleStrip (joinSpace ["((x))"]) = "(x)"
    ∧ ("x" : String) ≠ "(x)" := by
  decide

/-- C8 witness: the amended theorem applied to concrete tokens. -/
theorem claim_C8_witness :
    aget entryC8w "status_description"
      = some (.str (pyRstripAll ')' (pyLstripAll '('
          (joinSpace ((["t", "status=sent", "(ok)"] : List String).drop (1 + 1)))))) :=
  claim_C8 [] ["t", "status=sent", "(ok)"] 1 entryC8w (by decide) (by decide) (by decide)

theorem cleanup_skip {p : Parser} {tnow : Int} (h : p.next_cleanup > tnow) :
    _cleanup_old_entities p tnow = .ok p := by
  unfold _cleanup_old_entities
  rw [if_pos h]

theorem dovecot_skip {st : StateMap} {tokens : List String}
    (h : dovecotCond tokens = .ok false) :
    _handle_dovecot_case st tokens = .ok (st, false) := by
  simp only [_handle_dovecot_case, h]

theorem buildEvent_missing {qid : String} {obj : Entry}
    (h : aget obj "from" = none ∨ aget obj "to" = none ∨ aget obj "message-id" = none
      ∨ aget obj "status" = none ∨ aget obj "status_description" = none) :
    ∃ err, buildEvent qid obj = .error err := by
  cases hb : buildEvent qid obj with
  | error e => exact ⟨e, rfl⟩
  | ok ev =>
    obtain ⟨-, ⟨fv, hf, -⟩, ⟨tv, ht, -⟩, ⟨mv, hm, -⟩, hst, ⟨d, hsd, -⟩, -, -⟩ :=
      buildEvent_ok_inv hb
    rcases h with h | h | h | h | h <;> simp_all

/-- Transport of required-field absence across an unrelated dict
write. -/
theorem missing_transport (ee : Entry) (k : String) (v : Val)
    (h1 : k ≠ "from") (h2 : k ≠ "to") (h3 : k ≠ "message-id") (h4 : k ≠ "status")
    (h5 : k ≠ "status_description")
    (hm : aget ee "from" = none ∨ aget ee "to" = none ∨ aget ee "message-id" = none
      ∨ aget ee "status" = none ∨ aget ee "status_description" = none) :
    aget (aset ee k v) "from" = none ∨ aget (aset ee k v) "to" = none
      ∨ aget (aset ee k v) "message-id" = none ∨ aget (aset ee k v) "status" = none
      ∨ aget (aset ee k v) "status_description" = none := by
  rcases hm with hm | hm | hm | hm | hm
  · exact Or.inl (by rw [aget_aset_ne _ _ _ _ (fun hh => h1 hh.symm)]; exact hm)
  · exact Or.inr (Or.inl (by rw [aget_aset_ne _ _ _ _ (fun hh => h2 hh.symm)]; exact hm))
  · exact Or.inr (Or.inr (Or.inl
      (by rw [aget_aset_ne _ _ _ _ (fun hh => h3 hh.symm)]; exact hm)))
  · exact Or.inr (Or.inr (Or.inr (Or.inl
      (by rw [aget_aset_ne _ _ _ _ (fun hh => h4 hh.symm)]; exact hm))))
  · exact Or.inr (Or.inr (Or.inr (Or.inr
      (by rw [aget_aset_ne _ _ _ _ (fun hh => h5 hh.symm)]; exact hm))))

/-- A `removed` marker over a record missing a required field: the
event build fails, so the whole handler raises and the record is not
deleted. -/
theorem removed_tail_missing (st : StateMap) (qid : String) (rest : List String)
    (e2 : Entry)
    (hm : aget e2 "from" = none ∨ aget e2 "to" = none ∨ aget e2 "message-id" = none
      ∨ aget e2 "status" = none ∨ aget e2 "status_description" = none) :
    ∃ err, _handle_special_postfix_cases (aset st qid e2) qid ("removed" :: rest)
      = .error err := by
  obtain ⟨err, herr⟩ := @buildEvent_missing qid e2 hm
  refine ⟨err, ?_⟩
  unfold _handle_special_postfix_cases
  simp [aget_aset_self, herr]

/-- The queue-id tail of `feed_line` on a `removed` line whose record
misses a required field: one error is raised, no event is produced, and
the record survives in the resulting store. -/
theorem afterQueueId_removed_missing (st : StateMap) (s t0 t1 t2 t3 : String)
    (rest : List String) (ts : Int) (qid : String) (e : Entry)
    (he : aget st qid = some e)
    (hmiss : aget e "from" = none ∨ aget e "to" = none ∨ aget e "message-id" = none
      ∨ aget e "status" = none ∨ aget e "status_description" = none) :
    ∃ err st', afterQueueId st s (t0 :: t1 :: t2 :: t3 :: "removed" :: rest) ts qid
        = ⟨st', [], some err⟩ ∧ (aget st' qid).isSome := by
  unfold afterQueueId
  rw [if_pos (by rw [he]; rfl)]
  have hentry : (aget st qid).getD [] = e := by rw [he]; rfl
  simp only [hentry]
  have hdrop : (t0 :: t1 :: t2 :: t3 :: "removed" :: rest).drop 4 = "removed" :: rest := rfl
  have tail : ∀ e1 : Entry,
      (aget e1 "from" = none ∨ aget e1 "to" = none ∨ aget e1 "message-id" = none
        ∨ aget e1 "status" = none ∨ aget e1 "status_description" = none) →
      ∃ err st',
        (let e2 := if (aget e1 "timestamp").isSome then e1
                   else aset e1 "timestamp" (.time ts)
         let st3 := aset st qid e2
         match _handle_special_postfix_cases st3 qid
             ((t0 :: t1 :: t2 :: t3 :: "removed" :: rest).drop 4) with
         | .error e => (⟨st3, [], some e⟩ : BodyResult)
         | .ok (st4, evs, true) => ⟨st4, evs, none⟩
         | .ok (st4, _, false) =>
           match _set_fields e2 (t0 :: t1 :: t2 :: t3 :: "removed" :: rest) with
           | (e3, some err) => ⟨aset st4 qid e3, [], some err⟩
           | (e3, none) => ⟨aset st4 qid e3, [], none⟩)
        = ⟨st', [], some err⟩ ∧ (aget st' qid).isSome := by
    intro e1 hm1
    rw [hdrop]
    by_cases hts2 : (aget e1 "timestamp").isSome
    · rw [if_pos hts2]
      obtain ⟨err, hsp⟩ := removed_tail_missing st qid rest e1 hm1
      refine ⟨err, aset st qid e1, ?_, ?_⟩
      · simp [hsp]
      · rw [aget_aset_self]
        rfl
    · rw [if_neg hts2]
      have hm2 := missing_transport e1 "timestamp" (.time ts)
        (by decide) (by decide) (by decide) (by decide) (by decide) hm1
      obtain ⟨err, hsp⟩ := removed_tail_missing st qid rest _ hm2
      refine ⟨err, aset st qid (aset e1 "timestamp" (.time ts)), ?_, ?_⟩
      · simp [hsp]
      · rw [aget_aset_self]
        rfl
  cases hrl : aget e "raw_log" with
  | none =>
    simp only [rawLogAppend, hrl]
    exact tail _ (missing_transport e "raw_log" _
      (by decide) (by decide) (by decide) (by decide) (by decide) hmiss)
  | some w =>
    cases w with
    | strList l =>
      simp only [rawLogAppend, hrl]
      exact tail _ (missing_transport e "raw_log" _
        (by decide) (by decide) (by decide) (by decide) (by decide) hmiss)
    | str s2 =>
      simp only [rawLogAppend, hrl]
      exact ⟨"AttributeError", st, rfl, by rw [he]; rfl⟩
    | time t2 =>
      simp only [rawLogAppend, hrl]
      exact ⟨"AttributeError", st, rfl, by rw [he]; rfl⟩

/-- C1: the claim states that a faulted finalization (a required field
missing when the `removed` marker arrives) reports the fault once AND
still removes the record from the store.  In the code the event is
constructed before `del self.state[queue_id]`, so the raised error
skips the deletion: the fault callback is invoked once with the line
and the error, no event is emitted, and the record REMAINS in the
store.  This result proves that amended behavior, at a call where the
sweep is idle. -/
theorem claim_C1 (p : Parser) (tnow : Int) (s : String)
    (ts hostTok procTok qt : String) (rest : List String) (e : Entry) (T : Int)
    (hsweep : p.next_cleanup > tnow)
    (htok : pySplitWs s = ts :: hostTok :: procTok :: qt :: "removed" :: rest)
    (hts : parseIso ts = some T)
    (hqid : is_queue_id qt = true)
    (he : aget p.state (pyDropLast qt) = some e)
    (hmiss : aget e "from" = none ∨ aget e "to" = none ∨ aget e "message-id" = none
      ∨ aget e "status" = none ∨ aget e "status_description" = none) :
    ∃ err r, feed_line p tnow s = .ok r
      ∧ r.faults = [(s, err)]
      ∧ r.events = []
      ∧ (aget r.parser.state (pyDropLast qt)).isSome := by
  have hcond : dovecotCond (ts :: hostTok :: procTok :: qt :: "removed" :: rest)
      = .ok false := by
    simp [dovecotCond]
  have hbody : ∃ err st', feedTokens p.state s = ⟨st', [], some err⟩
      ∧ (aget st' (pyDropLast qt)).isSome := by
    unfold feedTokens
    simp only [htok, List.length_cons]
    rw [if_neg (by omega)]
    rw [dovecot_skip hcond]
    simp only [List.headD_cons, hts]
    have h3 : ((ts :: hostTok :: procTok :: qt :: "removed" :: rest)[3]?).getD "" = qt := by
      rfl
    rw [h3, if_pos hqid]
    exact afterQueueId_removed_missing p.state s ts hostTok procTok qt rest T
      (pyDropLast qt) e he hmiss
  obtain ⟨err, st', hft, hsome⟩ := hbody
  refine ⟨err, ⟨⟨st', p.next_cleanup, p.cleanup_interval⟩, [], [(s, err)]⟩, ?_, rfl, rfl, hsome⟩
  unfold feed_line
  rw [cleanup_skip hsweep]
  simp only [hft]

/-- C1 witness: the amended theorem applied to a concrete store and
removal line. -/
theorem claim_C1_witness :
    ∃ err r, feed_line pC1w 0 lineC1w = .ok r
      ∧ r.faults = [(lineC1w, err)]
      ∧ r.events = []
      ∧ (aget r.parser.state (pyDropLast "0123456789A:")).isSome :=
  claim_C1 pC1w 0 lineC1w "2024-04-09" "h" "p" "0123456789A:" [] eC1w
    65061705600000000 (by decide) (by decide) (by decide) (by decide) (by decide)
    (Or.inl (by decide))

/-- C1 counterexample: a faulted finalization reports the fault once
but does NOT remove the record — the store still holds the queue id
afterwards, contradicting the removal half of the claim. -/
theorem claim_C1_counterexample :
    (match feed_line pC1x 0 lineC1x with
     | .ok r => (r.faults, r.events, (aget r.parser.state "AAAAAAAAAAA").isSome)
     | .error _ => ([], [], false))
    = ([(lineC1x, "KeyError: from")], [], true) := by
  decide

/-- C6: the claim states a line failing a structural check (fewer than
5 tokens, unparseable timestamp, bad transaction-id token) triggers
neither callback and leaves the store unchanged.  Two code paths
contradict it as stated: the eviction sweep runs before line
processing and can still purge stale records, and a line whose token 4
is `Info:` can raise an `IndexError` inside the secondary-subsystem
check (or, fully matching, update records) before the timestamp is even
looked at.  Amended: when additionally the secondary-subsystem
condition evaluates cleanly to false, feeding the line emits no event,
reports no fault, and leaves the engine exactly as the sweep left
it. -/
theorem claim_C6 (p : Parser) (tnow : Int) (s : String) (cp : Parser)
    (hcl : _cleanup_old_entities p tnow = .ok cp)
    (hbad : (pySplitWs s).length < 5
      ∨ (dovecotCond (pySplitWs s) = .ok false
         ∧ (parseIso ((pySplitWs s).headD "") = none
            ∨ is_queue_id ((pySplitWs s)[3]?.getD "") = false))) :
    feed_line p tnow s = .ok ⟨cp, [], []⟩ := by
  obtain ⟨cst, cnext, cint⟩ := cp
  have hb : feedTokens cst s = bodyPure cst := by
    unfold feedTokens
    by_cases hlen : (pySplitWs s).length < 5
    · rw [if_pos hlen]
    · rw [if_neg hlen]
      rcases hbad with hbad | ⟨hdc, hrest⟩
      · exact absurd hbad hlen
      · rw [dovecot_skip hdc]
        rcases hrest with hp | hq
        · simp only [hp]
        · cases hpi : parseIso ((pySplitWs s).headD "") with
          | none => simp only []
          | some ts =>
            simp only [hq, Bool.false_eq_true, if_false]
  unfold feed_line
  rw [hcl]
  simp only [hb, bodyPure]

/-- C6 witness: the amended theorem applied to the under-length line
`"LINE"` against a fresh engine. -/
theorem claim_C6_witness :
    feed_line (initParser 0) 0 "LINE" = .ok ⟨initParser 0, [], []⟩ :=
  claim_C6 (initParser 0) 0 "LINE" (initParser 0) (by decide) (Or.inl (by decide))

/-- C6 counterexample: the line `"a b c d Info:"` fails the structural
checks (token 0 is not a timestamp, token 3 is not a transaction id),
yet feeding it invokes the fault callback once with an `IndexError`
raised inside the secondary-subsystem token check. -/
theorem claim_C6_counterexample :
    feed_line (initParser 0) 0 "a b c d Info:"
      = .ok ⟨initParser 0, [], [("a b c d Info:", "IndexError")]⟩
    ∧ parseIso "a" = none
    ∧ is_queue_id "d" = false := by
  decide

theorem mem_aset {α : Type} {l : List (String × α)} {k : String} {v : α}
    {kv : String × α} (h : kv ∈ aset l k v) : kv = (k, v) ∨ kv ∈ l := by
  induction l with
  | nil =>
    simp only [aset] at h
    exact Or.inl (List.mem_singleton.mp h)
  | cons p rest ih =>
    by_cases hp : p.1 = k
    · simp only [aset, if_pos hp, List.mem_cons] at h
      rcases h with h | h
      · exact Or.inl h
      · exact Or.inr (List.mem_cons_of_mem _ h)
    · simp only [aset, if_neg hp, List.mem_cons] at h
      rcases h with h | h
      · exact Or.inr (h ▸ List.mem_cons_self _ _)
      · rcases ih h with h2 | h2
        · exact Or.inl h2
        · exact Or.inr (List.mem_cons_of_mem _ h2)

theorem mem_adel {α : Type} {l : List (String × α)} {k : String}
    {kv : String × α} (h : kv ∈ adel l k) : kv ∈ l := by
  induction l with
  | nil => simp [adel] at h
  | cons p rest ih =>
    by_cases hp : p.1 = k
    · simp only [adel, if_pos hp] at h
      exact List.mem_cons_of_mem _ (ih h)
    · simp only [adel, if_neg hp, List.mem_cons] at h
      rcases h with h | h
      · exact h ▸ List.mem_cons_self _ _
      · exact List.mem_cons_of_mem _ (ih h)

theorem aget_mem {α : Type} {l : List (String × α)} {k : String} {v : α}
    (h : aget l k = some v) : (k, v) ∈ l := by
  induction l with
  | nil => simp [aget] at h
  | cons p rest ih =>
    by_cases hp : p.1 = k
    · simp only [aget, if_pos hp, Option.some.injEq] at h
      have h2 : (k, v) = p := by rw [← hp, ← h]
      rw [h2]
      exact List.mem_cons_self _ _
    · simp only [aget, if_neg hp] at h
      exact List.mem_cons_of_mem _ (ih h)

theorem aget_none_iff {α : Type} (l : List (String × α)) (k : String) :
    aget l k = none ↔ ∀ p ∈ l, p.1 ≠ k := by
  induction l with
  | nil => simp [aget]
  | cons p rest ih =>
    by_cases hp : p.1 = k
    · simp [aget, hp]
    · simp [aget, hp, ih]

theorem mem_cleanupFilter {tnow : Int} {st r : StateMap}
    (h : cleanupFilter tnow st = .ok r) {kv : String × Entry} (hm : kv ∈ r) :
    kv ∈ st := by
  induction st generalizing r with
  | nil =>
    unfold cleanupFilter at h
    injection h with h2
    rw [← h2] at hm
    cases hm
  | cons p rest ih =>
    obtain ⟨k, e⟩ := p
    unfold cleanupFilter at h
    cases ht : aget e "timestamp" with
    | none => simp only [ht] at h; cases h
    | some w =>
      simp only [ht] at h
      cases w with
      | str s2 => cases h
      | time t =>
        cases hrec : cleanupFilter tnow rest with
        | error err => simp only [hrec] at h; cases h
        | ok r2 =>
          simp only [hrec] at h
          by_cases hc : tnow - t < OLD_LOGS
          · rw [if_pos hc] at h
            injection h with h2
            rw [← h2] at hm
            rcases List.mem_cons.mp hm with hm2 | hm2
            · rw [hm2]
              exact List.mem_cons_self _ _
            · exact List.mem_cons_of_mem _ (ih hrec hm2)
          · rw [if_neg hc] at h
            injection h with h2
            rw [← h2] at hm
            exact List.mem_cons_of_mem _ (ih hrec hm)
      | strList l2 => cases h

theorem rawLogAppend_ok {entry : Entry} {s : String} {e1 : Entry}
    (h : rawLogAppend entry s = .ok e1) :
    ∃ w, e1 = aset entry "raw_log" (Val.strList w) := by
  unfold rawLogAppend at h
  cases hg : aget entry "raw_log" with
  | none =>
    rw [hg] at h
    injection h with h2
    exact ⟨[s], h2.symm⟩
  | some w =>
    rw [hg] at h
    cases w with
    | str s2 => cases h
    | time t => cases h
    | strList l =>
      injection h with h2
      exact ⟨l ++ [s], h2.symm⟩

/-- Shape analysis of `_try_to_parse_subject`: a successful run either
leaves the store unchanged or writes a `subject` string into the record
of `queue_id`. -/
theorem try_subject_cases {st : StateMap} {qid : String} {toks : List String}
    {st2 : StateMap} {b : Bool}
    (h : _try_to_parse_subject st qid toks = .ok (st2, b)) :
    st2 = st ∨ ∃ e v, aget st qid = some e
      ∧ st2 = aset st qid (aset e "subject" (Val.str v)) := by
  unfold _try_to_parse_subject at h
  cases h0 : toks[0]? with
  | none => rw [h0] at h; cases h
  | some t0 =>
  simp only [h0] at h
  by_cases ht0 : t0 ≠ "warning:"
  · rw [if_pos ht0] at h
    injection h with h2
    exact Or.inl (congrArg Prod.fst h2).symm
  rw [if_neg ht0] at h
  cases h1 : toks[1]? with
  | none => rw [h1] at h; cases h
  | some t1 =>
  simp only [h1] at h
  by_cases ht1 : t1 ≠ "header"
  · rw [if_pos ht1] at h
    injection h with h2
    exact Or.inl (congrArg Prod.fst h2).symm
  rw [if_neg ht1] at h
  cases h2t : toks[2]? with
  | none => rw [h2t] at h; cases h
  | some t2 =>
  simp only [h2t] at h
  by_cases ht2 : t2 ≠ "Subject:"
  · rw [if_pos ht2] at h
    injection h with h2
    exact Or.inl (congrArg Prod.fst h2).symm
  rw [if_neg ht2] at h
  cases h3t : toks[3]? with
  | none => rw [h3t] at h; cases h
  | some t3 =>
  simp only [h3t] at h
  by_cases hu : "=?UTF-8".data.isPrefixOf t3.data
  · rw [if_pos hu] at h
    cases hd : decodeMimeWord t3 with
    | none => rw [hd] at h; cases h
    | some subj =>
      simp only [hd] at h
      cases hq : aget st qid with
      | none => rw [hq] at h; cases h
      | some e =>
        simp only [hq] at h
        injection h with h2
        exact Or.inr ⟨e, subj, rfl, (congrArg Prod.fst h2).symm⟩
  · rw [if_neg hu] at h
    cases hq : aget st qid with
    | none => rw [hq] at h; cases h
    | some e =>
      simp only [hq] at h
      injection h with h2
      exact Or.inr ⟨e, _, rfl, (congrArg Prod.fst h2).symm⟩

/-- Shape analysis of `_handle_special_postfix_cases`: a successful run
either emits nothing and leaves the store unchanged up to a subject
write, or (on a `removed` marker) deletes the record of `queue_id` and
emits exactly one event carrying that queue id. -/
theorem handle_special_cases {st : StateMap} {qid : String} {toks : List String}
    {st4 : StateMap} {evs : List PostfixEvent} {b : Bool}
    (h : _handle_special_postfix_cases st qid toks = .ok (st4, evs, b)) :
    (evs = [] ∧ (st4 = st
       ∨ ∃ e v, aget st qid = some e
         ∧ st4 = aset st qid (aset e "subject" (Val.str v))))
    ∨ (toks[0]? = some "removed" ∧ st4 = adel st qid
        ∧ ∃ ev, evs = [ev] ∧ ev.queue_id = qid) := by
  unfold _handle_special_postfix_cases at h
  cases h0 : toks[0]? with
  | none => rw [h0] at h; cases h
  | some t0 =>
  simp only [h0] at h
  by_cases ht0 : t0 = "removed"
  · rw [if_pos ht0] at h
    cases hq : aget st qid with
    | none => rw [hq] at h; cases h
    | some entry =>
      simp only [hq] at h
      cases hbe : buildEvent qid entry with
      | error e => rw [hbe] at h; cases h
      | ok ev =>
        simp only [hbe] at h
        injection h with h2
        obtain ⟨hst, hevs, -⟩ := Prod.mk.injEq .. |>.mp h2 |>.imp id
          (fun q => Prod.mk.injEq .. |>.mp q)
        refine Or.inr ⟨congrArg some ht0, hst.symm, ev, hevs.symm, ?_⟩
        have hinv := buildEvent_ok_inv hbe
        exact hinv.2.2.2.2.2.2.2.1
  · rw [if_neg ht0] at h
    cases hsub : _try_to_parse_subject st qid toks with
    | error e => rw [hsub] at h; cases h
    | ok p =>
      obtain ⟨stx, bx⟩ := p
      simp only [hsub] at h
      injection h with h2
      obtain ⟨hst, hevs, -⟩ := Prod.mk.injEq .. |>.mp h2 |>.imp id
        (fun q => Prod.mk.injEq .. |>.mp q)
      exact Or.inl ⟨hevs.symm, hst ▸ try_subject_cases hsub⟩

theorem set_fields_go_pres (tokens : List String) :
    ∀ (entry : Entry) (s0 : Option Nat) (i0 : Nat) (e' : Entry) (sOut : Option Nat)
      (errOut : Option String) (key : String),
      key ≠ "to" →
      (∀ t ∈ tokens, statusTokenName t ≠ some key) →
      set_fields_go entry s0 i0 tokens = (e', sOut, errOut) →
      aget e' key = aget entry key := by
  induction tokens with
  | nil =>
    intro entry s0 i0 e' sOut errOut key hkto hnames hrun
    unfold set_fields_go at hrun
    have h1 : entry = e' := congrArg Prod.fst hrun
    rw [← h1]
  | cons t rest ih =>
    intro entry s0 i0 e' sOut errOut key hkto hnames hrun
    unfold set_fields_go at hrun
    cases hkv : splitKeyValue t with
    | none =>
      simp only [hkv] at hrun
      exact ih entry s0 (i0 + 1) e' sOut errOut key hkto
        (fun t2 ht2 => hnames t2 (List.mem_cons_of_mem _ ht2)) hrun
    | some p =>
      obtain ⟨n, v⟩ := p
      simp only [hkv] at hrun
      have hnk : n ≠ key := by
        intro hh
        exact hnames t (List.mem_cons_self _ _) (by simp [statusTokenName, hkv, hh])
      by_cases hn : n = "to"
      · rw [if_pos hn] at hrun
        cases hto : aget entry "to" with
        | none =>
          simp only [hto] at hrun
          have := ih _ _ (i0 + 1) e' sOut errOut key hkto
            (fun t2 ht2 => hnames t2 (List.mem_cons_of_mem _ ht2)) hrun
          rw [this, aget_aset_ne _ _ _ _ hkto]
        | some w =>
          simp only [hto] at hrun
          cases w with
          | strList l =>
            have := ih _ _ (i0 + 1) e' sOut errOut key hkto
              (fun t2 ht2 => hnames t2 (List.mem_cons_of_mem _ ht2)) hrun
            rw [this, aget_aset_ne _ _ _ _ hkto]
          | str s2 =>
            have h1 : entry = e' := congrArg Prod.fst hrun
            rw [← h1]
          | time t2 =>
            have h1 : entry = e' := congrArg Prod.fst hrun
            rw [← h1]
      · rw [if_neg hn] at hrun
        have := ih _ _ (i0 + 1) e' sOut errOut key hkto
          (fun t2 ht2 => hnames t2 (List.mem_cons_of_mem _ ht2)) hrun
        rw [this, aget_aset_ne _ _ _ _ (fun hh => hnk hh.symm)]

theorem set_fields_pres {entry : Entry} {tokens : List String} {e' : Entry}
    {errOut : Option String} {key : String}
    (hkto : key ≠ "to") (hksd : key ≠ "status_description")
    (hnames : ∀ t ∈ tokens, statusTokenName t ≠ some key)
    (hres : _set_fields entry tokens = (e', errOut)) :
    aget e' key = aget entry key := by
  unfold _set_fields at hres
  cases hgo : set_fields_go entry none 0 tokens with
  | mk e1 q =>
    obtain ⟨s1, err1⟩ := q
    have hpres := set_fields_go_pres tokens entry none 0 e1 s1 err1 key hkto hnames hgo
    cases err1 with
    | some e2 =>
      simp only [hgo] at hres
      have h1 : e1 = e' := congrArg Prod.fst hres
      rw [← h1, hpres]
    | none =>
      cases s1 with
      | none =>
        simp only [hgo] at hres
        have h1 : e1 = e' := congrArg Prod.fst hres
        rw [← h1, hpres]
      | some i =>
        simp only [hgo] at hres
        by_cases hi : i ≠ 0
        · rw [if_pos hi] at hres
          have h1 := Prod.mk.injEq .. |>.mp hres |>.1
          rw [← h1, aget_aset_ne _ _ _ _ hksd, hpres]
        · rw [if_neg hi] at hres
          have h1 : e1 = e' := congrArg Prod.fst hres
          rw [← h1, hpres]

theorem dovecotUpdate_timestamp (m a : String) (e : Entry) :
    aget (dovecotUpdate m a e) "timestamp" = aget e "timestamp" := by
  unfold dovecotUpdate
  by_cases h : aget e "message-id" = some (.str m)
  · rw [if_pos h]
    exact aget_aset_ne _ _ _ _ (by decide)
  · rw [if_neg h]

/-- Shape analysis of `_handle_dovecot_case`: a successful run leaves
the store unchanged or maps the per-record dovecot update over it. -/
theorem dovecot_shape {st : StateMap} {tokens : List String} {st1 : StateMap} {b : Bool}
    (h : _handle_dovecot_case st tokens = .ok (st1, b)) :
    st1 = st ∨ ∃ m a, st1 = st.map (fun kv => (kv.1, dovecotUpdate m a kv.2)) := by
  unfold _handle_dovecot_case at h
  cases hc : dovecotCond tokens with
  | error er => simp only [hc] at h; cases h
  | ok bc =>
    cases bc with
    | false =>
      simp only [hc] at h
      injection h with h2
      exact Or.inl (congrArg Prod.fst h2).symm
    | true =>
      simp only [hc] at h
      cases h6 : tokens[6]? with
      | none => rw [h6] at h; cases h
      | some t6 =>
        simp only [h6] at h
        cases hsp : pySplitOnce '=' t6 with
        | none => rw [hsp] at h; cases h
        | some p =>
          simp only [hsp] at h
          injection h with h2
          exact Or.inr ⟨pyDropLast p.2, joinSpace (tokens.drop 9),
            (congrArg Prod.fst h2).symm⟩

/-- The queue-id tail of `feed_line` never touches records of other
queue ids. -/
theorem afterQueueId_other (st : StateMap) (s : String) (tokens : List String)
    (ts : Int) (qid2 qid : String) (hne : qid ≠ qid2) :
    aget (afterQueueId st s tokens ts qid2).state qid = aget st qid := by
  have tail : ∀ (st2 : StateMap) (e2 : Entry),
      aget st2 qid = aget st qid →
      aget (BodyResult.state
        (match _handle_special_postfix_cases (aset st2 qid2 e2) qid2 (tokens.drop 4) with
         | .error e => (⟨aset st2 qid2 e2, [], some e⟩ : BodyResult)
         | .ok (st4, evs, true) => ⟨st4, evs, none⟩
         | .ok (st4, _, false) =>
           match _set_fields e2 tokens with
           | (e3, some err) => ⟨aset st4 qid2 e3, [], some err⟩
           | (e3, none) => ⟨aset st4 qid2 e3, [], none⟩)) qid = aget st qid := by
    intro st2 e2 hst2
    have hbase : aget (aset st2 qid2 e2) qid = aget st qid := by
      rw [aget_aset_ne _ _ _ _ hne, hst2]
    cases hsp : _handle_special_postfix_cases (aset st2 qid2 e2) qid2 (tokens.drop 4) with
    | error er => simp only [hsp]; exact hbase
    | ok trip =>
      obtain ⟨st4, evs, b⟩ := trip
      have hst4 : aget st4 qid = aget st qid := by
        rcases handle_special_cases hsp with ⟨-, hsh⟩ | ⟨-, hdel, -⟩
        · rcases hsh with rfl | ⟨ex, vx, -, rfl⟩
          · exact hbase
          · rw [aget_aset_ne _ _ _ _ hne]; exact hbase
        · rw [hdel, aget_adel_ne _ _ _ hne]; exact hbase
      cases b with
      | true => simp only [hsp]; exact hst4
      | false =>
        simp only [hsp]
        cases hsf : _set_fields e2 tokens with
        | mk e3 err3 =>
          cases err3 with
          | some er2 =>
            simp only [hsf]
            rw [aget_aset_ne _ _ _ _ hne]; exact hst4
          | none =>
            simp only [hsf]
            rw [aget_aset_ne _ _ _ _ hne]; exact hst4
  unfold afterQueueId
  by_cases hex : (aget st qid2).isSome
  · rw [if_pos hex]
    cases hrl : rawLogAppend ((aget st qid2).getD []) s with
    | error er => simp only [hrl]
    | ok e1 =>
      simp only [hrl]
      by_cases hts2 : (aget e1 "timestamp").isSome
      · rw [if_pos hts2]
        exact tail st e1 rfl
      · rw [if_neg hts2]
        exact tail st _ rfl
  · rw [if_neg hex]
    have happ : aget (st ++ [(qid2, ([] : Entry))]) qid = aget st qid :=
      aget_append_ne st qid2 qid _ hne
    cases hrl : rawLogAppend ((aget (st ++ [(qid2, ([] : Entry))]) qid2).getD []) s with
    | error er => simp only [hrl]; exact happ
    | ok e1 =>
      simp only [hrl]
      by_cases hts2 : (aget e1 "timestamp").isSome
      · rw [if_pos hts2]
        exact tail _ e1 happ
      · rw [if_neg hts2]
        exact tail _ _ happ

/-- The queue-id tail of `feed_line` preserves the stored timestamp of
a record, provided the line carries no `timestamp=` token. -/
theorem afterQueueId_timestamp (st : StateMap) (s : String) (tokens : List String)
    (ts : Int) (qid2 qid : String) (e_mid e' : Entry) (v : Val)
    (hget : aget st qid = some e_mid)
    (hv : aget e_mid "timestamp" = some v)
    (hnames : ∀ t ∈ tokens, statusTokenName t ≠ some "timestamp")
    (h' : aget (afterQueueId st s tokens ts qid2).state qid = some e') :
    aget e' "timestamp" = some v := by
  by_cases heq : qid2 = qid
  · subst heq
    have tailEq : ∀ (e2 : Entry),
        aget e2 "timestamp" = some v →
        aget (BodyResult.state
          (match _handle_special_postfix_cases (aset st qid2 e2) qid2 (tokens.drop 4) with
           | .error e => (⟨aset st qid2 e2, [], some e⟩ : BodyResult)
           | .ok (st4, evs, true) => ⟨st4, evs, none⟩
           | .ok (st4, _, false) =>
             match _set_fields e2 tokens with
             | (e3, some err) => ⟨aset st4 qid2 e3, [], some err⟩
             | (e3, none) => ⟨aset st4 qid2 e3, [], none⟩)) qid2 = some e' →
        aget e' "timestamp" = some v := by
      intro e2 hv2 h2
      cases hsp : _handle_special_postfix_cases (aset st qid2 e2) qid2 (tokens.drop 4) with
      | error er =>
        simp only [hsp] at h2
        rw [aget_aset_self] at h2
        injection h2 with h3
        rw [← h3]; exact hv2
      | ok trip =>
        obtain ⟨st4, evs, b⟩ := trip
        cases b with
        | true =>
          simp only [hsp] at h2
          rcases handle_special_cases hsp with ⟨-, hsh⟩ | ⟨-, hdel, -⟩
          · rcases hsh with rfl | ⟨ex, vx, hgx, rfl⟩
            · rw [aget_aset_self] at h2
              injection h2 with h3
              rw [← h3]; exact hv2
            · rw [aget_aset_self] at hgx
              injection hgx with h4
              rw [aget_aset_self] at h2
              injection h2 with h3
              rw [← h3, aget_aset_ne _ _ _ _ (by decide), ← h4]
              exact hv2
          · rw [hdel, aget_adel_self] at h2
            cases h2
        | false =>
          simp only [hsp] at h2
          cases hsf : _set_fields e2 tokens with
          | mk e3 err3 =>
            have hp3 : aget e3 "timestamp" = some v := by
              rw [set_fields_pres (by decide) (by decide) hnames hsf]
              exact hv2
            cases err3 with
            | some er2 =>
              simp only [hsf] at h2
              rw [aget_aset_self] at h2
              injection h2 with h3
              rw [← h3]; exact hp3
            | none =>
              simp only [hsf] at h2
              rw [aget_aset_self] at h2
              injection h2 with h3
              rw [← h3]; exact hp3
    unfold afterQueueId at h'
    rw [if_pos (by rw [hget]; rfl)] at h'
    simp only [hget, Option.getD_some] at h'
    cases hrl : rawLogAppend e_mid s with
    | error er =>
      simp only [hrl] at h'
      rw [hget] at h'
      injection h' with h3
      rw [← h3]; exact hv
    | ok e1 =>
      simp only [hrl] at h'
      obtain ⟨w, rfl⟩ := rawLogAppend_ok hrl
      have hv1 : aget (aset e_mid "raw_log" (Val.strList w)) "timestamp" = some v := by
        rw [aget_aset_ne _ _ _ _ (by decide)]; exact hv
      rw [if_pos (by rw [hv1]; rfl)] at h'
      exact tailEq _ hv1 h'
  · have hne : qid ≠ qid2 := fun hh => heq hh.symm
    rw [afterQueueId_other st s tokens ts qid2 qid hne, hget] at h'
    injection h' with h3
    rw [← h3]; exact hv

/-- C9: the claim states the first-seen timestamp, once set, is never
overwritten by any later line for the same id.  The guard in
`feed_line` indeed never overwrites it, but `_set_fields` writes ANY
`key=value` token into the record, so a later line carrying a
`timestamp=...` token replaces the stored datetime with a plain string.
Amended: at a call where the sweep is idle, if the line carries no
`timestamp=` token, the stored timestamp of every record still present
afterwards is unchanged. -/
theorem claim_C9 (p : Parser) (tnow : Int) (s : String) (r : FeedResult)
    (qid : String) (e e' : Entry) (v : Val)
    (hsweep : p.next_cleanup > tnow)
    (hq : aget p.state qid = some e)
    (hv : aget e "timestamp" = some v)
    (hnames : ∀ t ∈ pySplitWs s, statusTokenName t ≠ some "timestamp")
    (hr : feed_line p tnow s = .ok r)
    (hq' : aget r.parser.state qid = some e') :
    aget e' "timestamp" = some v := by
  unfold feed_line at hr
  rw [cleanup_skip hsweep] at hr
  injection hr with hr2
  have hq2 : aget (feedTokens p.state s).state qid = some e' := by
    rw [← hr2] at hq'
    exact hq'
  unfold feedTokens at hq2
  by_cases hlen : (pySplitWs s).length < 5
  · rw [if_pos hlen] at hq2
    have hq3 : aget p.state qid = some e' := hq2
    rw [hq] at hq3
    injection hq3 with h3
    rw [← h3]; exact hv
  · rw [if_neg hlen] at hq2
    cases hdc : _handle_dovecot_case p.state (pySplitWs s) with
    | error er =>
      simp only [hdc] at hq2
      have hq3 : aget p.state qid = some e' := hq2
      rw [hq] at hq3
      injection hq3 with h3
      rw [← h3]; exact hv
    | ok pr =>
      obtain ⟨st1, b1⟩ := pr
      have hmid : ∃ e_mid, aget st1 qid = some e_mid
          ∧ aget e_mid "timestamp" = some v := by
        rcases dovecot_shape hdc with rfl | ⟨m, a, rfl⟩
        · exact ⟨e, hq, hv⟩
        · refine ⟨dovecotUpdate m a e, ?_, ?_⟩
          · rw [aget_map, hq]; rfl
          · rw [dovecotUpdate_timestamp]; exact hv
      obtain ⟨e_mid, hm1, hm2⟩ := hmid
      simp only [hdc] at hq2
      cases b1 with
      | true =>
        have hq3 : aget st1 qid = some e' := hq2
        rw [hm1] at hq3
        injection hq3 with h3
        rw [← h3]; exact hm2
      | false =>
        cases hpi : parseIso ((pySplitWs s).headD "") with
        | none =>
          simp only [hpi] at hq2
          have hq3 : aget st1 qid = some e' := hq2
          rw [hm1] at hq3
          injection hq3 with h3
          rw [← h3]; exact hm2
        | some ts =>
          simp only [hpi] at hq2
          by_cases hqd : is_queue_id ((pySplitWs s)[3]?.getD "")
          · rw [if_pos hqd] at hq2
            exact afterQueueId_timestamp st1 s (pySplitWs s) ts _ qid e_mid e' v
              hm1 hm2 hnames hq2
          · rw [if_neg hqd] at hq2
            have hq3 : aget st1 qid = some e' := hq2
            rw [hm1] at hq3
            injection hq3 with h3
            rw [← h3]; exact hm2

/-- C9 witness: the amended theorem applied to a concrete record and
follow-up line. -/
theorem claim_C9_witness : aget eC9wAfter "timestamp" = some (Val.time 5) :=
  claim_C9 pC9w 0 lineC9w rC9w "0123456789A" eC9w eC9wAfter (Val.time 5)
    (by decide) (by decide) (by decide) (by decide) (by decide) (by decide)

/-- C9 counterexample: the first-seen timestamp set by the first line
is overwritten with the string `"x"` by a later `timestamp=x` token for
the same id. -/
theorem claim_C9_counterexample :
    (match feed_line (initParser 0) 0 lineC9x1 with
     | .ok r1 =>
       (match feed_line r1.parser 0 lineC9x2 with
        | .ok r2 => ((aget r1.parser.state "0123456789A").map (fun e2 => aget e2 "timestamp"),
                     (aget r2.parser.state "0123456789A").map (fun e2 => aget e2 "timestamp"))
        | .error _ => (none, none))
     | .error _ => (none, none))
    = (some (some (Val.time 65061705600000000)), some (some (Val.str "x"))) := by
  decide

theorem hasCoreKeys_aset {e : Entry} (k : String) (v : Val) (h : hasCoreKeys e) :
    hasCoreKeys (aset e k v) :=
  ⟨aget_aset_isSome _ _ _ _ h.1, aget_aset_isSome _ _ _ _ h.2⟩

theorem hasCoreKeys_dovecotUpdate {e : Entry} (m a : String) (h : hasCoreKeys e) :
    hasCoreKeys (dovecotUpdate m a e) := by
  unfold dovecotUpdate
  by_cases hc : aget e "message-id" = some (.str m)
  · rw [if_pos hc]
    exact hasCoreKeys_aset _ _ h
  · rw [if_neg hc]
    exact h

theorem stateWF_aset {st : StateMap} {k : String} {e : Entry}
    (hwf : stateWF st) (hc : hasCoreKeys e) : stateWF (aset st k e) := by
  intro kv hm
  rcases mem_aset hm with h | h
  · rw [h]
    exact hc
  · exact hwf kv h

theorem stateWF_adel {st : StateMap} {k : String} (hwf : stateWF st) :
    stateWF (adel st k) := fun kv hm => hwf kv (mem_adel hm)

theorem set_fields_go_keysSome (tokens : List String) :
    ∀ (entry : Entry) (s0 : Option Nat) (i0 : Nat) (e3 : Entry) (sOut : Option Nat)
      (errOut : Option String) (key : String),
      (aget entry key).isSome →
      set_fields_go entry s0 i0 tokens = (e3, sOut, errOut) →
      (aget e3 key).isSome := by
  induction tokens with
  | nil =>
    intro entry s0 i0 e3 sOut errOut key hk hrun
    unfold set_fields_go at hrun
    have h1 : entry = e3 := congrArg Prod.fst hrun
    rw [← h1]
    exact hk
  | cons t rest ih =>
    intro entry s0 i0 e3 sOut errOut key hk hrun
    unfold set_fields_go at hrun
    cases hkv : splitKeyValue t with
    | none =>
      simp only [hkv] at hrun
      exact ih entry s0 (i0 + 1) e3 sOut errOut key hk hrun
    | some p =>
      obtain ⟨n, v⟩ := p
      simp only [hkv] at hrun
      by_cases hn : n = "to"
      · rw [if_pos hn] at hrun
        cases hto : aget entry "to" with
        | none =>
          simp only [hto] at hrun
          exact ih _ _ (i0 + 1) e3 sOut errOut key
            (aget_aset_isSome _ _ _ _ hk) hrun
        | some w =>
          simp only [hto] at hrun
          cases w with
          | strList l =>
            exact ih _ _ (i0 + 1) e3 sOut errOut key
              (aget_aset_isSome _ _ _ _ hk) hrun
          | str s2 =>
            have h1 : entry = e3 := congrArg Prod.fst hrun
            rw [← h1]
            exact hk
          | time t2 =>
            have h1 : entry = e3 := congrArg Prod.fst hrun
            rw [← h1]
            exact hk
      · rw [if_neg hn] at hrun
        exact ih _ _ (i0 + 1) e3 sOut errOut key
          (aget_aset_isSome _ _ _ _ hk) hrun

theorem set_fields_core {entry : Entry} {tokens : List String} {e3 : Entry}
    {errOut : Option String} (hc : hasCoreKeys entry)
    (h : _set_fields entry tokens = (e3, errOut)) : hasCoreKeys e3 := by
  unfold _set_fields at h
  cases hgo : set_fields_go entry none 0 tokens with
  | mk e1 q =>
    obtain ⟨s1, err1⟩ := q
    have hc1 : hasCoreKeys e1 :=
      ⟨set_fields_go_keysSome tokens entry none 0 e1 s1 err1 _ hc.1 hgo,
       set_fields_go_keysSome tokens entry none 0 e1 s1 err1 _ hc.2 hgo⟩
    cases err1 with
    | some e2 =>
      simp only [hgo] at h
      have h1 : e1 = e3 := congrArg Prod.fst h
      rw [← h1]
      exact hc1
    | none =>
      cases s1 with
      | none =>
        simp only [hgo] at h
        have h1 : e1 = e3 := congrArg Prod.fst h
        rw [← h1]
        exact hc1
      | some i =>
        simp only [hgo] at h
        by_cases hi : i ≠ 0
        · rw [if_pos hi] at h
          have h1 := Prod.mk.injEq .. |>.mp h |>.1
          rw [← h1]
          exact hasCoreKeys_aset _ _ hc1
        · rw [if_neg hi] at h
          have h1 : e1 = e3 := congrArg Prod.fst h
          rw [← h1]
          exact hc1

theorem e2_core {entry : Entry} {s : String} {e1 : Entry} (ts : Int)
    (h : rawLogAppend entry s = .ok e1) :
    hasCoreKeys (if (aget e1 "timestamp").isSome then e1
                 else aset e1 "timestamp" (Val.time ts)) := by
  obtain ⟨w, rfl⟩ := rawLogAppend_ok h
  by_cases hts : (aget (aset entry "raw_log" (Val.strList w)) "timestamp").isSome
  · rw [if_pos hts]
    exact ⟨hts, by rw [aget_aset_self]; rfl⟩
  · rw [if_neg hts]
    constructor
    · rw [aget_aset_self]
      rfl
    · rw [aget_aset_ne _ _ _ _ (by decide)]
      rw [aget_aset_self]
      rfl

theorem aset_append_of_none {α : Type} (l : List (String × α)) (k : String)
    (w v : α) (h : aget l k = none) : aset (l ++ [(k, w)]) k v = l ++ [(k, v)] := by
  induction l with
  | nil => simp [aset]
  | cons p rest ih =>
    have hp : ¬(p.1 = k) := by
      rw [aget_none_iff] at h
      exact h p (List.mem_cons_self _ _)
    have h2 : aget rest k = none := by
      rw [aget_none_iff] at h
      rw [aget_none_iff]
      exact fun q hq => h q (List.mem_cons_of_mem _ hq)
    simp only [List.cons_append, aset, if_neg hp, List.append_eq]
    rw [ih h2]

theorem handle_special_WF {st : StateMap} {qid : String} {toks : List String}
    {st4 : StateMap} {evs : List PostfixEvent} {b : Bool} (hwf : stateWF st)
    (h : _handle_special_postfix_cases st qid toks = .ok (st4, evs, b)) :
    stateWF st4 := by
  rcases handle_special_cases h with ⟨-, hsh⟩ | ⟨-, hdel, -⟩
  · rcases hsh with rfl | ⟨ex, vx, hgx, rfl⟩
    · exact hwf
    · exact stateWF_aset hwf (hasCoreKeys_aset _ _ (hwf _ (aget_mem hgx)))
  · rw [hdel]
    exact stateWF_adel hwf

theorem afterQueueId_WF (st : StateMap) (s : String) (tokens : List String)
    (ts : Int) (qid2 : String) (hwf : stateWF st) :
    stateWF (afterQueueId st s tokens ts qid2).state := by
  have tailWF : ∀ (st3 : StateMap) (e2 : Entry), stateWF st3 → hasCoreKeys e2 →
      stateWF (BodyResult.state
        (match _handle_special_postfix_cases st3 qid2 (tokens.drop 4) with
         | .error e => (⟨st3, [], some e⟩ : BodyResult)
         | .ok (st4, evs, true) => ⟨st4, evs, none⟩
         | .ok (st4, _, false) =>
           match _set_fields e2 tokens with
           | (e3, some err) => ⟨aset st4 qid2 e3, [], some err⟩
           | (e3, none) => ⟨aset st4 qid2 e3, [], none⟩)) := by
    intro st3 e2 hwf3 hc2
    cases hsp : _handle_special_postfix_cases st3 qid2 (tokens.drop 4) with
    | error er => simp only [hsp]; exact hwf3
    | ok trip =>
      obtain ⟨st4, evs, b⟩ := trip
      have hwf4 : stateWF st4 := handle_special_WF hwf3 hsp
      cases b with
      | true => simp only [hsp]; exact hwf4
      | false =>
        simp only [hsp]
        cases hsf : _set_fields e2 tokens with
        | mk e3 err3 =>
          have hc3 : hasCoreKeys e3 := set_fields_core hc2 hsf
          cases err3 with
          | some er2 => simp only [hsf]; exact stateWF_aset hwf4 hc3
          | none => simp only [hsf]; exact stateWF_aset hwf4 hc3
  unfold afterQueueId
  by_cases hex : (aget st qid2).isSome
  · rw [if_pos hex]
    cases hrl : rawLogAppend ((aget st qid2).getD []) s with
    | error er => simp only [hrl]; exact hwf
    | ok e1 =>
      simp only [hrl]
      have hcore := e2_core ts hrl
      by_cases hts2 : (aget e1 "timestamp").isSome
      · rw [if_pos hts2]
        rw [if_pos hts2] at hcore
        exact tailWF _ _ (stateWF_aset hwf hcore) hcore
      · rw [if_neg hts2]
        rw [if_neg hts2] at hcore
        exact tailWF _ _ (stateWF_aset hwf hcore) hcore
  · rw [if_neg hex]
    have hget0 : aget st qid2 = none := Option.not_isSome_iff_eq_none.mp hex
    have happ : aget (st ++ [(qid2, ([] : Entry))]) qid2 = some [] :=
      aget_append_of_none st qid2 _ hget0
    simp only [happ, Option.getD_some]
    cases hrl : rawLogAppend ([] : Entry) s with
    | error er => cases hrl
    | ok e1 =>
      simp only [hrl]
      have hcore := e2_core ts hrl
      have haset : ∀ e2 : Entry, aset (st ++ [(qid2, ([] : Entry))]) qid2 e2
          = st ++ [(qid2, e2)] := fun e2 => aset_append_of_none st qid2 _ e2 hget0
      have hwfapp : ∀ e2 : Entry, hasCoreKeys e2 →
          stateWF (st ++ [(qid2, e2)]) := by
        intro e2 hc kv hm
        rcases List.mem_append.mp hm with hm2 | hm2
        · exact hwf kv hm2
        · rcases List.mem_singleton.mp hm2 with rfl
          exact hc
      by_cases hts2 : (aget e1 "timestamp").isSome
      · rw [if_pos hts2]
        rw [if_pos hts2] at hcore
        have := tailWF (aset (st ++ [(qid2, ([] : Entry))]) qid2 e1) e1
          (by rw [haset]; exact hwfapp _ hcore) hcore
        exact this
      · rw [if_neg hts2]
        rw [if_neg hts2] at hcore
        have := tailWF (aset (st ++ [(qid2, ([] : Entry))]) qid2
            (aset e1 "timestamp" (Val.time ts))) _
          (by rw [haset]; exact hwfapp _ hcore) hcore
        exact this

theorem cleanup_WF {p : Parser} {tnow : Int} {p1 : Parser} (hwf : stateWF p.state)
    (h : _cleanup_old_entities p tnow = .ok p1) : stateWF p1.state := by
  unfold _cleanup_old_entities at h
  by_cases hn : p.next_cleanup > tnow
  · rw [if_pos hn] at h
    injection h with h2
    rw [← h2]
    exact hwf
  · rw [if_neg hn] at h
    cases hf : cleanupFilter tnow p.state with
    | error er => simp only [hf] at h; cases h
    | ok st2 =>
      simp only [hf] at h
      injection h with h2
      have h3 : p1.state = st2 := by rw [← h2]
      rw [h3]
      intro kv hm
      exact hwf kv (mem_cleanupFilter hf hm)

theorem feedTokens_WF (s : String) {st : StateMap} (hwf : stateWF st) :
    stateWF (feedTokens st s).state := by
  unfold feedTokens
  by_cases hlen : (pySplitWs s).length < 5
  · rw [if_pos hlen]
    exact hwf
  · rw [if_neg hlen]
    cases hdc : _handle_dovecot_case st (pySplitWs s) with
    | error er => simp only [hdc]; exact hwf
    | ok pr =>
      obtain ⟨st1, b1⟩ := pr
      have hwf1 : stateWF st1 := by
        rcases dovecot_shape hdc with rfl | ⟨m, a, rfl⟩
        · exact hwf
        · intro kv hm
          obtain ⟨kv0, hkv0, rfl⟩ := List.mem_map.mp hm
          exact hasCoreKeys_dovecotUpdate m a (hwf kv0 hkv0)
      simp only [hdc]
      cases b1 with
      | true => exact hwf1
      | false =>
        cases hpi : parseIso ((pySplitWs s).headD "") with
        | none => simp only [hpi]; exact hwf1
        | some ts =>
          simp only [hpi]
          by_cases hqd : is_queue_id ((pySplitWs s)[3]?.getD "")
          · rw [if_pos hqd]
            exact afterQueueId_WF _ _ _ _ _ hwf1
          · rw [if_neg hqd]
            exact hwf1

/-- C10: the claim states every record always holds a parsed-datetime
`timestamp` and a non-empty `raw_log` sequence, so the sweep never
meets a record lacking one.  The keys are indeed always present
(proved here as an invariant of `feed_line`), but their VALUES are not
protected: a `timestamp=` or `raw_log=` key=value token overwrites them
with plain strings, after which the sweep raises an uncaught
`TypeError`.  Amended: after every successful `feed_line` call, every
record still carries both keys. -/
theorem claim_C10 (p : Parser) (tnow : Int) (s : String) (r : FeedResult)
    (hwf : stateWF p.state) (h : feed_line p tnow s = .ok r) :
    stateWF r.parser.state := by
  unfold feed_line at h
  cases hcl : _cleanup_old_entities p tnow with
  | error er => rw [hcl] at h; cases h
  | ok p1 =>
    simp only [hcl] at h
    injection h with h2
    have hr : stateWF (feedTokens p1.state s).state :=
      feedTokens_WF s (cleanup_WF hwf hcl)
    have h3 : r.parser.state = (feedTokens p1.state s).state := by rw [← h2]
    rw [h3]
    exact hr

/-- C10 witness: the amended invariant applied to a fresh engine and an
uninteresting line. -/
theorem claim_C10_witness : stateWF (initParser 0).state :=
  claim_C10 (initParser 0) 0 "LINE" ⟨initParser 0, [], []⟩
    (by decide) (by decide)

/-- C10 counterexample: after the line, the timestamp key of the record
holds the plain string `"x"` (not a parsed datetime), and the next
eviction sweep raises an uncaught `TypeError`. -/
theorem claim_C10_counterexample :
    (match feed_line (initParser 0) 0 lineC10x with
     | .ok r => ((aget r.parser.state "0123456789A").map (fun e => aget e "timestamp"),
                 feed_line r.parser 1000000000 "z")
     | .error e => (none, .error e))
    = (some (some (Val.str "x")), .error "TypeError") := by
  decide

theorem cleanupFilter_keep {tnow : Int} {st r : StateMap} {qid : String}
    {e : Entry} {t : Int}
    (h : cleanupFilter tnow st = .ok r) (hq : aget st qid = some e)
    (ht : aget e "timestamp" = some (.time t)) (hfresh : tnow - t < OLD_LOGS) :
    aget r qid = some e := by
  induction st generalizing r with
  | nil => simp [aget] at hq
  | cons p rest ih =>
    obtain ⟨k, e0⟩ := p
    unfold cleanupFilter at h
    cases ht0 : aget e0 "timestamp" with
    | none => simp only [ht0] at h; cases h
    | some w =>
      simp only [ht0] at h
      cases w with
      | str s2 => cases h
      | strList l2 => cases h
      | time t0 =>
        cases hrec : cleanupFilter tnow rest with
        | error er => simp only [hrec] at h; cases h
        | ok r2 =>
          simp only [hrec] at h
          by_cases hk : k = qid
          · subst hk
            have hq2 : e0 = e := by simpa [aget] using hq
            subst hq2
            rw [ht0] at ht
            injection ht with ht2
            injection ht2 with ht3
            subst ht3
            rw [if_pos hfresh] at h
            injection h with h2
            rw [← h2]
            simp [aget]
          · simp only [aget, if_neg hk] at hq
            have := ih hrec hq
            by_cases hc : tnow - t0 < OLD_LOGS
            · rw [if_pos hc] at h
              injection h with h2
              rw [← h2]
              simp only [aget, if_neg hk]
              exact this
            · rw [if_neg hc] at h
              injection h with h2
              rw [← h2]
              exact this

theorem cleanupFilter_none {tnow : Int} {st r : StateMap} {qid : String}
    (h : cleanupFilter tnow st = .ok r) (hq : aget st qid = none) :
    aget r qid = none := by
  rw [aget_none_iff]
  intro p hp
  rw [aget_none_iff] at hq
  exact hq p (mem_cleanupFilter h hp)

theorem cleanupFilter_drop {tnow : Int} {st r : StateMap} {qid : String}
    {e : Entry} {t : Int}
    (hnd : (st.map Prod.fst).Nodup)
    (h : cleanupFilter tnow st = .ok r) (hq : aget st qid = some e)
    (ht : aget e "timestamp" = some (.time t)) (hstale : ¬(tnow - t < OLD_LOGS)) :
    aget r qid = none := by
  induction st generalizing r with
  | nil => simp [aget] at hq
  | cons p rest ih =>
    obtain ⟨k, e0⟩ := p
    have hnd2 : (rest.map Prod.fst).Nodup := (List.nodup_cons.mp hnd).2
    have hkout : k ∉ rest.map Prod.fst := (List.nodup_cons.mp hnd).1
    unfold cleanupFilter at h
    cases ht0 : aget e0 "timestamp" with
    | none => simp only [ht0] at h; cases h
    | some w =>
      simp only [ht0] at h
      cases w with
      | str s2 => cases h
      | strList l2 => cases h
      | time t0 =>
        cases hrec : cleanupFilter tnow rest with
        | error er => simp only [hrec] at h; cases h
        | ok r2 =>
          simp only [hrec] at h
          by_cases hk : k = qid
          · subst hk
            have hq2 : e0 = e := by simpa [aget] using hq
            subst hq2
            rw [ht0] at ht
            injection ht with ht2
            injection ht2 with ht3
            subst ht3
            rw [if_neg hstale] at h
            injection h with h2
            rw [← h2]
            refine cleanupFilter_none hrec ?_
            rw [aget_none_iff]
            intro q hqm hq2
            exact hkout (hq2 ▸ List.mem_map_of_mem Prod.fst hqm)
          · simp only [aget, if_neg hk] at hq
            have := ih hnd2 hrec hq
            by_cases hc : tnow - t0 < OLD_LOGS
            · rw [if_pos hc] at h
              injection h with h2
              rw [← h2]
              simp only [aget, if_neg hk]
              exact this
            · rw [if_neg hc] at h
              injection h with h2
              rw [← h2]
              exact this

theorem cleanup_fire {p : Parser} {tnow : Int} {p' : Parser}
    (hdue : ¬(p.next_cleanup > tnow)) (h : _cleanup_old_entities p tnow = .ok p') :
    ∃ st2, cleanupFilter tnow p.state = .ok st2
      ∧ p' = ⟨st2, tnow + p.cleanup_interval, p.cleanup_interval⟩ := by
  unfold _cleanup_old_entities at h
  rw [if_neg hdue] at h
  cases hf : cleanupFilter tnow p.state with
  | error er => simp only [hf] at h; cases h
  | ok st2 =>
    simp only [hf] at h
    injection h with h2
    exact ⟨st2, rfl, h2.symm⟩

/-- All events of the queue-id tail carry the routed queue id. -/
theorem afterQueueId_events (st : StateMap) (s : String) (tokens : List String)
    (ts : Int) (qid2 : String) :
    ∀ ev ∈ (afterQueueId st s tokens ts qid2).events, ev.queue_id = qid2 := by
  have tail : ∀ (st2 : StateMap) (e2 : Entry),
      ∀ ev ∈ (BodyResult.events
        (match _handle_special_postfix_cases (aset st2 qid2 e2) qid2 (tokens.drop 4) with
         | .error e => (⟨aset st2 qid2 e2, [], some e⟩ : BodyResult)
         | .ok (st4, evs, true) => ⟨st4, evs, none⟩
         | .ok (st4, _, false) =>
           match _set_fields e2 tokens with
           | (e3, some err) => ⟨aset st4 qid2 e3, [], some err⟩
           | (e3, none) => ⟨aset st4 qid2 e3, [], none⟩)), ev.queue_id = qid2 := by
    intro st2 e2 ev hev
    cases hsp : _handle_special_postfix_cases (aset st2 qid2 e2) qid2 (tokens.drop 4) with
    | error er => simp only [hsp] at hev; cases hev
    | ok trip =>
      obtain ⟨st4, evs, b⟩ := trip
      cases b with
      | true =>
        simp only [hsp] at hev
        rcases handle_special_cases hsp with ⟨hevs, -⟩ | ⟨-, -, ev0, hevs, hqid0⟩
        · rw [hevs] at hev; cases hev
        · rw [hevs] at hev
          rcases List.mem_singleton.mp hev with rfl
          exact hqid0
      | false =>
        simp only [hsp] at hev
        cases hsf : _set_fields e2 tokens with
        | mk e3 err3 =>
          cases err3 with
          | some er2 => simp only [hsf] at hev; cases hev
          | none => simp only [hsf] at hev; cases hev
  unfold afterQueueId
  by_cases hex : (aget st qid2).isSome
  · rw [if_pos hex]
    cases hrl : rawLogAppend ((aget st qid2).getD []) s with
    | error er =>
      intro ev hev
      simp only [hrl] at hev
      cases hev
    | ok e1 =>
      simp only [hrl]
      by_cases hts2 : (aget e1 "timestamp").isSome
      · rw [if_pos hts2]
        exact tail st e1
      · rw [if_neg hts2]
        exact tail st _
  · rw [if_neg hex]
    cases hrl : rawLogAppend ((aget (st ++ [(qid2, ([] : Entry))]) qid2).getD []) s with
    | error er =>
      intro ev hev
      simp only [hrl] at hev
      cases hev
    | ok e1 =>
      simp only [hrl]
      by_cases hts2 : (aget e1 "timestamp").isSome
      · rw [if_pos hts2]
        exact tail _ e1
      · rw [if_neg hts2]
        exact tail _ _

/-- The queue-id tail keeps its own record present when the content is
not the completion marker. -/
theorem afterQueueId_keeps_self (st : StateMap) (s : String) (tokens : List String)
    (ts : Int) (qid2 : String) (hnr : tokens[4]? ≠ some "removed") :
    (aget (afterQueueId st s tokens ts qid2).state qid2).isSome := by
  have hdrop0 : (tokens.drop 4)[0]? = tokens[4]? := by
    rw [List.getElem?_drop]
  have tail : ∀ (st2 : StateMap) (e2 : Entry),
      (aget (BodyResult.state
        (match _handle_special_postfix_cases (aset st2 qid2 e2) qid2 (tokens.drop 4) with
         | .error e => (⟨aset st2 qid2 e2, [], some e⟩ : BodyResult)
         | .ok (st4, evs, true) => ⟨st4, evs, none⟩
         | .ok (st4, _, false) =>
           match _set_fields e2 tokens with
           | (e3, some err) => ⟨aset st4 qid2 e3, [], some err⟩
           | (e3, none) => ⟨aset st4 qid2 e3, [], none⟩)) qid2).isSome := by
    intro st2 e2
    cases hsp : _handle_special_postfix_cases (aset st2 qid2 e2) qid2 (tokens.drop 4) with
    | error er =>
      simp only [hsp]
      rw [aget_aset_self]
      rfl
    | ok trip =>
      obtain ⟨st4, evs, b⟩ := trip
      have hst4 : (aget st4 qid2).isSome := by
        rcases handle_special_cases hsp with ⟨-, hsh⟩ | ⟨hmark, -, -⟩
        · rcases hsh with rfl | ⟨ex, vx, -, rfl⟩
          · rw [aget_aset_self]; rfl
          · rw [aget_aset_self]; rfl
        · rw [hdrop0] at hmark
          exact absurd hmark hnr
      cases b with
      | true => simp only [hsp]; exact hst4
      | false =>
        simp only [hsp]
        cases hsf : _set_fields e2 tokens with
        | mk e3 err3 =>
          cases err3 with
          | some er2 =>
            simp only [hsf]
            rw [aget_aset_self]
            rfl
          | none =>
            simp only [hsf]
            rw [aget_aset_self]
            rfl
  unfold afterQueueId
  by_cases hex : (aget st qid2).isSome
  · rw [if_pos hex]
    cases hrl : rawLogAppend ((aget st qid2).getD []) s with
    | error er => simp only [hrl]; exact hex
    | ok e1 =>
      simp only [hrl]
      by_cases hts2 : (aget e1 "timestamp").isSome
      · rw [if_pos hts2]
        exact tail st e1
      · rw [if_neg hts2]
        exact tail st _
  · rw [if_neg hex]
    have hget0 : aget st qid2 = none := Option.not_isSome_iff_eq_none.mp hex
    have happ : aget (st ++ [(qid2, ([] : Entry))]) qid2 = some [] :=
      aget_append_of_none st qid2 _ hget0
    cases hrl : rawLogAppend ((aget (st ++ [(qid2, ([] : Entry))]) qid2).getD []) s with
    | error er =>
      simp only [hrl]
      rw [happ]
      rfl
    | ok e1 =>
      simp only [hrl]
      by_cases hts2 : (aget e1 "timestamp").isSome
      · rw [if_pos hts2]
        exact tail _ e1
      · rw [if_neg hts2]
        exact tail _ _

theorem feedTokens_keeps (st : StateMap) (s : String) (qid : String)
    (hsome : (aget st qid).isSome)
    (hnr : ¬((pySplitWs s)[4]? = some "removed"
      ∧ pyDropLast ((pySplitWs s)[3]?.getD "") = qid)) :
    (aget (feedTokens st s).state qid).isSome := by
  unfold feedTokens
  by_cases hlen : (pySplitWs s).length < 5
  · rw [if_pos hlen]
    exact hsome
  · rw [if_neg hlen]
    cases hdc : _handle_dovecot_case st (pySplitWs s) with
    | error er => simp only [hdc]; exact hsome
    | ok pr =>
      obtain ⟨st1, b1⟩ := pr
      have hsome1 : (aget st1 qid).isSome := by
        rcases dovecot_shape hdc with rfl | ⟨m, a, rfl⟩
        · exact hsome
        · rw [aget_map]
          cases hg : aget st qid with
          | none => rw [hg] at hsome; cases hsome
          | some e0 => rfl
      simp only [hdc]
      cases b1 with
      | true => exact hsome1
      | false =>
        cases hpi : parseIso ((pySplitWs s).headD "") with
        | none => simp only [hpi]; exact hsome1
        | some ts =>
          simp only [hpi]
          by_cases hqd : is_queue_id ((pySplitWs s)[3]?.getD "")
          · rw [if_pos hqd]
            by_cases heq : pyDropLast ((pySplitWs s)[3]?.getD "") = qid
            · rw [heq]
              refine afterQueueId_keeps_self st1 s (pySplitWs s) ts qid ?_
              intro hr4
              exact hnr ⟨hr4, heq⟩
            · rw [afterQueueId_other st1 s (pySplitWs s) ts _ qid
                (fun hh => heq hh.symm)]
              exact hsome1
          · rw [if_neg hqd]
            exact hsome1

theorem feedTokens_gone (st : StateMap) (s : String) (qid : String)
    (hnone : aget st qid = none)
    (hnq : lineQueueId s ≠ some qid) :
    aget (feedTokens st s).state qid = none
    ∧ ∀ ev ∈ (feedTokens st s).events, ev.queue_id ≠ qid := by
  unfold feedTokens
  by_cases hlen : (pySplitWs s).length < 5
  · rw [if_pos hlen]
    exact ⟨hnone, by intro ev hev; cases hev⟩
  · rw [if_neg hlen]
    cases hdc : _handle_dovecot_case st (pySplitWs s) with
    | error er =>
      simp only [hdc]
      exact ⟨hnone, by intro ev hev; cases hev⟩
    | ok pr =>
      obtain ⟨st1, b1⟩ := pr
      have hnone1 : aget st1 qid = none := by
        rcases dovecot_shape hdc with rfl | ⟨m, a, rfl⟩
        · exact hnone
        · rw [aget_map, hnone]
          rfl
      simp only [hdc]
      cases b1 with
      | true => exact ⟨hnone1, by intro ev hev; cases hev⟩
      | false =>
        cases hpi : parseIso ((pySplitWs s).headD "") with
        | none =>
          simp only [hpi]
          exact ⟨hnone1, by intro ev hev; cases hev⟩
        | some ts =>
          simp only [hpi]
          by_cases hqd : is_queue_id ((pySplitWs s)[3]?.getD "")
          · rw [if_pos hqd]
            have hlq : lineQueueId s = some (pyDropLast ((pySplitWs s)[3]?.getD "")) := by
              unfold lineQueueId
              rw [if_neg hlen]
              simp only [hpi]
              rw [if_pos hqd]
            have hne : qid ≠ pyDropLast ((pySplitWs s)[3]?.getD "") := by
              intro hh
              exact hnq (by rw [hlq, hh])
            constructor
            · rw [afterQueueId_other st1 s (pySplitWs s) ts _ qid hne]
              exact hnone1
            · intro ev hev hqe
              have := afterQueueId_events st1 s (pySplitWs s) ts _ ev hev
              exact hne (by rw [← hqe, this])
          · rw [if_neg hqd]
            exact ⟨hnone1, by intro ev hev; cases hev⟩

/-- C5: the claim states an uncompleted record stays until a sweep
fires at a moment when its age EXCEEDS 10 minutes, is then removed
with no event or fault for it, and the next sweep is scheduled one
minute later.  The code keeps a record only while `now - first_seen <
OLD_LOGS`, so a record whose age equals exactly 10 minutes is already
removed — the threshold is inclusive, not strict.  This result proves
the amended behavior: (i) no sweep before the scheduled time; (ii) a
firing sweep keeps records younger than 10 minutes and reschedules to
now + cleanup_interval; (iii) a firing sweep removes records of age at
least 10 minutes; (iv) with the sweep idle, feeding a non-completion
line keeps the record; (v) when the sweep fires and evicts the stale
record, feeding a line routed elsewhere leaves it absent and emits no
event carrying its id. -/
theorem claim_C5 (p : Parser) (tnow : Int) (qid : String) (e : Entry) (t : Int)
    (hnd : (p.state.map Prod.fst).Nodup)
    (hq : aget p.state qid = some e)
    (ht : aget e "timestamp" = some (.time t)) :
    (p.next_cleanup > tnow → _cleanup_old_entities p tnow = .ok p)
    ∧ (¬(p.next_cleanup > tnow) → tnow - t < OLD_LOGS →
        ∀ p', _cleanup_old_entities p tnow = .ok p' →
          aget p'.state qid = some e
          ∧ p'.next_cleanup = tnow + p.cleanup_interval)
    ∧ (¬(p.next_cleanup > tnow) → tnow - t ≥ OLD_LOGS →
        ∀ p', _cleanup_old_entities p tnow = .ok p' →
          aget p'.state qid = none
          ∧ p'.next_cleanup = tnow + p.cleanup_interval)
    ∧ (∀ s r, p.next_cleanup > tnow → feed_line p tnow s = .ok r →
        ¬((pySplitWs s)[4]? = some "removed"
          ∧ pyDropLast ((pySplitWs s)[3]?.getD "") = qid) →
        (aget r.parser.state qid).isSome)
    ∧ (∀ s r, ¬(p.next_cleanup > tnow) → tnow - t ≥ OLD_LOGS →
        feed_line p tnow s = .ok r →
        lineQueueId s ≠ some qid →
        aget r.parser.state qid = none
          ∧ (∀ ev ∈ r.events, ev.queue_id ≠ qid)
          ∧ r.parser.next_cleanup = tnow + p.cleanup_interval) := by
  refine ⟨fun h => cleanup_skip h, ?_, ?_, ?_, ?_⟩
  · intro hdue hfresh p' hp'
    obtain ⟨st2, hf, rfl⟩ := cleanup_fire hdue hp'
    exact ⟨cleanupFilter_keep hf hq ht hfresh, rfl⟩
  · intro hdue hstale p' hp'
    obtain ⟨st2, hf, rfl⟩ := cleanup_fire hdue hp'
    exact ⟨cleanupFilter_drop hnd hf hq ht (by omega), rfl⟩
  · intro s r hidle hr hnr
    unfold feed_line at hr
    rw [cleanup_skip hidle] at hr
    injection hr with hr2
    have hkeep := feedTokens_keeps p.state s qid (by rw [hq]; rfl) hnr
    have hrp : r.parser.state = (feedTokens p.state s).state := by rw [← hr2]
    rw [hrp]
    exact hkeep
  · intro s r hdue hstale hr hnq
    unfold feed_line at hr
    cases hcl : _cleanup_old_entities p tnow with
    | error er => rw [hcl] at hr; cases hr
    | ok p1 =>
      simp only [hcl] at hr
      injection hr with hr2
      obtain ⟨st2, hf, rfl⟩ := cleanup_fire hdue hcl
      have hgone : aget st2 qid = none :=
        cleanupFilter_drop hnd hf hq ht (by omega)
      obtain ⟨hst, hevs⟩ := feedTokens_gone st2 s qid hgone hnq
      refine ⟨?_, ?_, ?_⟩
      · have hrp : r.parser.state = (feedTokens st2 s).state := by rw [← hr2]
        rw [hrp]
        exact hst
      · intro ev hev
        have hre : r.events = (feedTokens st2 s).events := by rw [← hr2]
        rw [hre] at hev
        exact hevs ev hev
      · have hrn : r.parser.next_cleanup = tnow + p.cleanup_interval := by rw [← hr2]
        exact hrn

/-- C5 witness: the amended theorem applied to a concrete parser — the
sweep is a no-op before its scheduled time. -/
theorem claim_C5_witness : _cleanup_old_entities pC5w 0 = .ok pC5w :=
  (claim_C5 pC5w 0 "AAAAAAAAAAA" eC5w 0 (by decide) (by decide) (by decide)).1
    (by decide)

/-- C5 counterexample: at a sweep firing when the age of the record is
EXACTLY ten minutes (so its first-seen timestamp does not exceed ten
minutes of age), the record is nevertheless removed — the staleness
threshold is inclusive, contradicting the strict reading of the
claim. -/
theorem claim_C5_counterexample :
    _cleanup_old_entities pC5x 600000000
      = .ok { state := [], next_cleanup := 660000000, cleanup_interval := 60000000 }
    ∧ ¬(600000000 - 0 > OLD_LOGS) := by
  decide
